import Mathlib

/-!
Shallow embedding of the gameplay-logic core of `super-kaizen-overloaded`
(src/enemy.rs, src/game.rs), a bevy 0.6 bullet-hell shooter.

Modelling conventions:
* `f32`/`f64` arithmetic is embedded as exact rational arithmetic (`ℚ`);
  rounding of floating-point literals (`0.04_f32`, `35°.to_radians()`, ...)
  is abstracted away: the embedded constants are the intended exact values,
  and no claim below depends on the rounded bit patterns.
* Angles are measured in turns (1 turn = `TAU` radians = 2π).  This is the
  linear rescale `radians / TAU`, which commutes with every operation the
  source performs on angles (addition, `% TAU`, absolute differences,
  comparisons), so every angular statement transports verbatim:
  `TAU ↦ 1`, `delta_angle = TAU/6 ↦ 1/6`, `player_angle = PI ↦ 1/2`.
* Rust's `%` on floats truncates the quotient towards zero (`rustRem`).
* Engine-side data that the core only forwards (mesh/material `Handle`s,
  physics components, tween objects) is omitted; animation progress is an
  external oracle polled each tick, exactly as the source polls
  `animator.progress()` on a black-box `Animator`.
* Bevy `Entity` ids are embedded as `ℕ`; `Color` as an abstract token `ℕ`.
-/

/-- Truncation of a rational towards zero, Rust's `f32::trunc`. -/
def qtrunc (q : ℚ) : ℤ := if 0 ≤ q then ⌊q⌋ else ⌈q⌉

/-- Rust's `%` on floats: `x - y * trunc (x / y)`. -/
def rustRem (x y : ℚ) : ℚ := x - y * qtrunc (x / y)

/-- Rust's `f32::fract`: `x - trunc x`. -/
def rustFract (x : ℚ) : ℚ := x - qtrunc x

/-- `glam::Vec3` with exact coordinates. -/
structure Vec3Q where
  x : ℚ
  y : ℚ
  z : ℚ
deriving DecidableEq, Repr

def Vec3Q.zero : Vec3Q := ⟨0, 0, 0⟩

/-- `Vec3::X`, the fixed forward direction. -/
def Vec3Q.unitX : Vec3Q := ⟨1, 0, 0⟩

def Vec3Q.sub (a b : Vec3Q) : Vec3Q := ⟨a.x - b.x, a.y - b.y, a.z - b.z⟩

def Vec3Q.smul (c : ℚ) (v : Vec3Q) : Vec3Q := ⟨c * v.x, c * v.y, c * v.z⟩

/-- Squared Euclidean length. -/
def Vec3Q.normSq (v : Vec3Q) : ℚ := v.x * v.x + v.y * v.y + v.z * v.z

/-! ## Timeline sequencer (src/enemy.rs, `Timeline` / `EnemyManager::execute_timeline`) -/

/-- `TimelineEvent { time, enemy, start_pos }` (enemy.rs:80-85). -/
structure TimelineEvent where
  time : ℚ
  enemy : String
  start_pos : Vec3Q
deriving DecidableEq

/-- `Timeline { events, index, time }` (enemy.rs:87-92). -/
structure Timeline where
  events : List TimelineEvent
  index : ℕ
  time : ℚ
deriving DecidableEq

/-- The scan loop of `execute_timeline` (enemy.rs:134-142): starting at
absolute index `i` with the remaining events `evs = events.drop i`, spawn
every event until the first one whose `time` exceeds the elapsed `time`,
and return the new `index` together with the spawned `(index, event)`
pairs.  Falling off the end sets `index = events.len()`. -/
def timelineScan (time : ℚ) : List TimelineEvent → ℕ → ℕ × List (ℕ × TimelineEvent)
  | [], i => (i, [])
  | ev :: rest, i =>
    if time < ev.time then (i, [])
    else
      let r := timelineScan time rest (i + 1)
      (r.1, (i, ev) :: r.2)

/-- `EnemyManager::execute_timeline` (enemy.rs:132-143): add `dt` to the
elapsed time, scan from the remembered index, spawn elapsed events. -/
def executeTimeline (tl : Timeline) (dt : ℚ) : Timeline × List (ℕ × TimelineEvent) :=
  let t := tl.time + dt
  let r := timelineScan t (tl.events.drop tl.index) tl.index
  (⟨tl.events, r.1, t⟩, r.2)

/-- Fresh sequencer state for a loaded event list (enemy.rs:87-92, 671:
`index = 0`, `time = 0`). -/
def timelineInit (events : List TimelineEvent) : Timeline := ⟨events, 0, 0⟩

/-- Repeated `execute_timeline` calls, one per tick, accumulating every
spawn request in order. -/
def runTimeline (tl : Timeline) : List ℚ → Timeline × List (ℕ × TimelineEvent)
  | [] => (tl, [])
  | dt :: dts =>
    let r := executeTimeline tl dt
    let rest := runTimeline r.1 dts
    (rest.1, r.2 ++ rest.2)

/-! ## Enemy descriptors and registry (src/enemy.rs:37-130) -/

/-- `BulletKind` (enemy.rs:37-43). -/
inductive BulletKind
  | pinkDonut
  | whiteBall
deriving DecidableEq

/-- `FireTagKind` (enemy.rs:45-51). -/
inductive FireTagKind
  | spiral
  | aimBurst
deriving DecidableEq

/-- `MotionPatternKind` (enemy.rs:53-59). -/
inductive MotionPatternKind
  | enterStay
  | flyBy
deriving DecidableEq

/-- `EnemyDescriptor` (enemy.rs:61-78); the engine-side asset handles
(`enemy_mesh`, `bullet_material`, ...) are omitted. -/
structure EnemyDescriptor where
  name : String
  life : ℚ
  is_boss : Bool
  fire_tag_kind : FireTagKind
  motion_pattern_kind : MotionPatternKind
  bullet_kind : BulletKind
deriving DecidableEq

/-! ## Fire patterns (src/enemy.rs:272-416) -/

/-- `FireTagSpiral` (enemy.rs:276-287).  Angles in turns; asset handles
omitted.  `arms_count` and `cur_iter` are `i32` in the source; both are
nonnegative in every reachable state (defaults 6 and 0, `cur_iter` only
incremented), so they are embedded as `ℕ`. -/
structure FireTagSpiral where
  arms_count : ℕ
  bullet_speed : ℚ
  fire_delay : ℚ
  rotate_speed : ℚ
  cur_time : ℚ
  cur_angle : ℚ
  cur_iter : ℕ
deriving DecidableEq

/-- `FireTagSpiral::default` (enemy.rs:289-304): 6 arms, speed 4.3,
delay 0.04 s, rotation 35°/s = 35/360 turn/s. -/
def FireTagSpiral.init : FireTagSpiral :=
  { arms_count := 6, bullet_speed := 43/10, fire_delay := 1/25,
    rotate_speed := 35/360, cur_time := 0, cur_angle := 0, cur_iter := 0 }

/-- Distance of arm `idx` from the fixed aim reference: the source maps
`idx ↦ (angle + delta_angle * idx) % TAU` and measures
`(arm_angle - player_angle).abs()` with `player_angle = PI` (enemy.rs:323-325,
328); in turns the reference is `1/2`. -/
def armAimDist (base : ℚ) (n : ℕ) (idx : ℕ) : ℚ :=
  |rustRem (base + 1 / (n : ℚ) * (idx : ℚ)) 1 - 1/2|

/-- `Iterator::min_by` with the comparator of enemy.rs:326-333: the
accumulator is replaced exactly when the comparator answers `Greater`,
i.e. when the challenger is strictly closer. -/
def minByDistFold (f : ℕ → ℚ) : List ℕ → ℕ → ℕ
  | [], best => best
  | x :: xs, best => minByDistFold f xs (if f x < f best then x else best)

/-- The aim-arm selection of enemy.rs:324-335: index of the arm aiming
closest to the player reference angle, `unwrap_or(0)` on an empty range. -/
def aimArmIdx (base : ℚ) (n : ℕ) : ℕ :=
  match List.range n with
  | [] => 0
  | i :: is => minByDistFold (armAimDist base n) is i

/-- The per-arm volley loop of enemy.rs:339-358: `k` arms remaining,
`idx` the current arm, `angle` the running angle; an arm fires unless the
suppression window (`cur_iter % 25 < 5`) targets the aim arm, and the
running angle advances by `delta` (mod one turn) after every arm. -/
def spiralArmLoop (iter aim : ℕ) (delta : ℚ) : ℕ → ℕ → ℚ → List ℚ
  | 0, _, _ => []
  | k + 1, idx, angle =>
    (if 5 ≤ iter % 25 ∨ idx ≠ aim then [angle] else [])
      ++ spiralArmLoop iter aim delta k (idx + 1) (rustRem (angle + delta) 1)

/-- `FireTagSpiral::execute` (enemy.rs:306-363), returning the fired
bullet angles (each bullet is spawned with rotation
`Quat::from_rotation_z(angle)` and speed `bullet_speed`).  The unused
`cone_angle` of enemy.rs:314 is dropped. -/
def FireTagSpiral.execute (s : FireTagSpiral) (dt : ℚ) : FireTagSpiral × List ℚ :=
  let cur_time := s.cur_time + dt
  let next_angle := rustRem (s.cur_angle + s.rotate_speed * dt) 1
  if s.fire_delay ≤ cur_time then
    let delta := 1 / (s.arms_count : ℚ)
    let angle := rustRem s.cur_angle 1
    let aim := aimArmIdx angle s.arms_count
    let iter := s.cur_iter + 1
    let bullets := spiralArmLoop iter aim delta s.arms_count 0 angle
    ({ s with cur_time := 0, cur_iter := iter, cur_angle := next_angle }, bullets)
  else
    ({ s with cur_time := cur_time, cur_angle := next_angle }, [])

/-- `FireTagAimBurst` (enemy.rs:365-374); asset handles omitted,
`bullet_count`/`cur_iter` are nonnegative `i32`s embedded as `ℕ`. -/
structure FireTagAimBurst where
  bullet_count : ℕ
  bullet_speed : ℚ
  fire_delay : ℚ
  cur_time : ℚ
  cur_iter : ℕ
deriving DecidableEq

/-- `FireTagAimBurst::default` (enemy.rs:376-389). -/
def FireTagAimBurst.init : FireTagAimBurst :=
  { bullet_count := 6, bullet_speed := 21/10, fire_delay := 1/25,
    cur_time := 0, cur_iter := 0 }

/-- `FireTagAimBurst::execute` (enemy.rs:391-416).  A fired bullet is
reported as the aim vector `player_position - origin`; the source turns
it into a direction with `try_normalize().unwrap_or(Vec3::X)`, which is
kept relational (`EmittedDir`) because exact normalization leaves ℚ. -/
def FireTagAimBurst.execute (s : FireTagAimBurst) (dt : ℚ) (origin player : Vec3Q) :
    FireTagAimBurst × Option Vec3Q :=
  if s.cur_iter < s.bullet_count then
    let cur_time := s.cur_time + dt
    if s.fire_delay ≤ cur_time then
      ({ s with cur_time := 0, cur_iter := s.cur_iter + 1 }, some (player.sub origin))
    else
      ({ s with cur_time := cur_time }, none)
  else
    (s, none)

/-- The direction actually emitted for an aim vector `delta`
(enemy.rs:402-404): the unit vector positively proportional to `delta`,
or the fixed forward fallback `Vec3::X` when `delta` is zero. -/
def EmittedDir (delta d : Vec3Q) : Prop :=
  (delta = Vec3Q.zero ∧ d = Vec3Q.unitX) ∨
  (delta ≠ Vec3Q.zero ∧ ∃ c : ℚ, 0 < c ∧ d = Vec3Q.smul c delta ∧ d.normSq = 1)

/-- Repeated `execute` calls; each input is one tick
`(dt, origin, player_position)`, and the emitted aim vectors are
accumulated in order. -/
def aimBurstRun (s : FireTagAimBurst) : List (ℚ × Vec3Q × Vec3Q) → FireTagAimBurst × List Vec3Q
  | [] => (s, [])
  | t :: ts =>
    let r := s.execute t.1 t.2.1 t.2.2
    let rest := aimBurstRun r.1 ts
    (rest.1, r.2.toList ++ rest.2)

/-! ## Motion patterns (src/enemy.rs:418-549)

The `Animator<Transform>` is the external tweening collaborator: the
embedding keeps its `state` (playing flag) and polls its `progress` as an
oracle value supplied afresh each tick; the tweens installed by
`set_tweenable` (durations, easings, lenses) live outside the core. -/

/-- `MotionResult` (enemy.rs:418-422). -/
inductive MotionResult
  | doNothing
  | startFireTag
deriving DecidableEq

/-- `EnterStayPhase` (enemy.rs:433-437). -/
inductive EnterStayPhase
  | idle
  | enter
  | stay
deriving DecidableEq

/-- `EnterStayMotion` (enemy.rs:439-451). -/
structure EnterStayMotion where
  phase : EnterStayPhase
  enter_height : ℚ
deriving DecidableEq

/-- `EnterStayMotion::do_motion` (enemy.rs:453-499): returns the updated
motion state, the updated translation, the updated animator playing flag
and the motion result.  `progress` is the polled `animator.progress()`. -/
def EnterStayMotion.do_motion (m : EnterStayMotion) (dt : ℚ) (translation : Vec3Q)
    (animPlaying : Bool) (progress : ℚ) :
    EnterStayMotion × Vec3Q × Bool × MotionResult :=
  match m.phase with
  | .idle =>
    ({ m with phase := .enter }, ⟨5, m.enter_height, 0⟩, true, .doNothing)
  | .enter =>
    if 1 ≤ progress then
      ({ m with phase := .stay }, translation, true, .startFireTag)
    else
      (m, translation, animPlaying, .doNothing)
  | .stay => (m, translation, animPlaying, .doNothing)

/-- `FlyByMotion` (enemy.rs:501-515). -/
structure FlyByMotion where
  start : Vec3Q
  direction : Vec3Q
  has_fired : Bool
deriving DecidableEq

/-- `FlyByMotion::do_motion` (enemy.rs:517-549): dispatches on the
animator state (`Paused` starts the fly-by tween; `Playing` fires once
past 30% progress). -/
def FlyByMotion.do_motion (m : FlyByMotion) (dt : ℚ) (translation : Vec3Q)
    (animPlaying : Bool) (progress : ℚ) :
    FlyByMotion × Vec3Q × Bool × MotionResult :=
  if animPlaying then
    if ¬m.has_fired ∧ 3/10 ≤ progress then
      ({ m with has_fired := true }, translation, true, .startFireTag)
    else
      (m, translation, true, .doNothing)
  else
    (m, translation, true, .doNothing)

/-- The two motion-pattern trait objects (`Box<dyn MotionPattern>`),
as a closed sum. -/
inductive MotionState
  | enterStay (m : EnterStayMotion)
  | flyBy (m : FlyByMotion)
deriving DecidableEq

/-- Trait dispatch for `do_motion`. -/
def MotionState.do_motion (ms : MotionState) (dt : ℚ) (translation : Vec3Q)
    (animPlaying : Bool) (progress : ℚ) :
    MotionState × Vec3Q × Bool × MotionResult :=
  match ms with
  | .enterStay m =>
    let r := m.do_motion dt translation animPlaying progress
    (.enterStay r.1, r.2)
  | .flyBy m =>
    let r := m.do_motion dt translation animPlaying progress
    (.flyBy r.1, r.2)

/-! ## Enemy controller and per-tick system (src/enemy.rs:551-741) -/

/-- The two fire-tag trait objects (`Box<dyn FireTag>`), as a closed sum. -/
inductive FireTagState
  | spiral (s : FireTagSpiral)
  | aimBurst (s : FireTagAimBurst)
deriving DecidableEq

/-- A bullet-spawn request produced by `FireTagContext::fire`
(enemy.rs:237-269): the spiral fires with `Quat::from_rotation_z(angle)`,
the aim burst with `Quat::from_rotation_arc(X, dir)` where `dir` is the
(relationally kept) normalization of the recorded aim vector. -/
inductive BulletReq
  | rotZ (angle speed : ℚ)
  | aimed (delta : Vec3Q) (speed : ℚ)
deriving DecidableEq

/-- Trait dispatch for `execute` (enemy.rs:272-274). -/
def FireTagState.execute (f : FireTagState) (dt : ℚ) (origin player : Vec3Q) :
    FireTagState × List BulletReq :=
  match f with
  | .spiral s =>
    let r := s.execute dt
    (.spiral r.1, r.2.map (fun a => BulletReq.rotZ a s.bullet_speed))
  | .aimBurst s =>
    let r := s.execute dt origin player
    (.aimBurst r.1, (r.2.map (fun d => BulletReq.aimed d s.bullet_speed)).toList)

/-- `EnemyController` (enemy.rs:551-570). -/
structure EnemyController where
  motion_pattern : Option MotionState
  fire_tag : Option FireTagState
  fire_tag_started : Bool
  life : ℚ
  remain_life : ℚ
deriving DecidableEq

/-- `EnemyController::update` (enemy.rs:572-597): run the motion pattern
(latching `fire_tag_started` on `StartFireTag`), then, if started, run
the fire tag with the pre-motion `origin`. -/
def EnemyController.update (c : EnemyController) (dt : ℚ) (origin player : Vec3Q)
    (translation : Vec3Q) (animPlaying : Bool) (progress : ℚ) :
    EnemyController × Vec3Q × Bool × List BulletReq :=
  let mv : Option MotionState × Vec3Q × Bool × MotionResult :=
    match c.motion_pattern with
    | none => (none, translation, animPlaying, .doNothing)
    | some mp =>
      let r := mp.do_motion dt translation animPlaying progress
      (some r.1, r.2)
  let started := if mv.2.2.2 = MotionResult.startFireTag then true else c.fire_tag_started
  let fr : Option FireTagState × List BulletReq :=
    if started then
      match c.fire_tag with
      | none => (none, [])
      | some ft =>
        let r := ft.execute dt origin player
        (some r.1, r.2)
    else
      (c.fire_tag, [])
  ({ c with motion_pattern := mv.1, fire_tag := fr.1, fire_tag_started := started },
   mv.2.1, mv.2.2.1, fr.2)

/-- `DamageEvent` (game.rs:180-185). -/
structure DamageEvent where
  entity : ℕ
  damage : ℚ
deriving DecidableEq

/-- `UpdateLifebarsEvent` (game.rs:213-219). -/
structure UpdateLifebarsEvent where
  entity : ℕ
  remain_life : ℚ
deriving DecidableEq

/-- Damage aggregation of enemy.rs:708-717 (and game.rs:404-413): the sum
of this tick's damage events addressed to `id`. -/
def damageFor (evs : List DamageEvent) (id : ℕ) : ℚ :=
  ((evs.filter (fun ev => ev.entity == id)).map DamageEvent.damage).sum

/-- One spawned enemy as the `update_enemy` query sees it: its entity id,
controller, transform translation and animator snapshot (playing flag
plus this tick's polled progress oracle). -/
structure EnemyEntity where
  id : ℕ
  controller : EnemyController
  translation : Vec3Q
  animPlaying : Bool
  animProgress : ℚ
deriving DecidableEq

/-- Output of one `update_enemy` pass over the enemy query. -/
structure EnemyTickOut where
  entities : List EnemyEntity
  lifebar_events : List UpdateLifebarsEvent
  bullets : List BulletReq
  halted : Bool
deriving DecidableEq

/-- The per-entity loop of `update_enemy` (enemy.rs:706-740): apply the
aggregated damage, notify the (always boss) lifebar on positive damage,
and on death (`remain_life <= 0`) despawn the entity and `return` from
the whole system, leaving every later enemy untouched this tick;
otherwise run `EnemyController::update`. -/
def updateEnemyLoop (boss : ℕ) (dt : ℚ) (player : Vec3Q) (dmg : List DamageEvent) :
    List EnemyEntity → EnemyTickOut
  | [] => ⟨[], [], [], false⟩
  | e :: rest =>
    let damage := damageFor dmg e.id
    let hit := 0 < damage
    let remain := if hit then e.controller.remain_life - damage else e.controller.remain_life
    let notes : List UpdateLifebarsEvent := if hit then [⟨boss, remain⟩] else []
    if remain ≤ 0 then
      ⟨rest, notes, [], true⟩
    else
      let c1 := { e.controller with remain_life := remain }
      let u := c1.update dt e.translation player e.translation e.animPlaying e.animProgress
      let r := updateEnemyLoop boss dt player dmg rest
      ⟨{ e with controller := u.1, translation := u.2.1, animPlaying := u.2.2.1 } :: r.entities,
       notes ++ r.lifebar_events, u.2.2.2 ++ r.bullets, r.halted⟩

/-! ## Enemy manager and spawning (src/enemy.rs:105-213) -/

/-- `EnemyManager` (enemy.rs:105-112); rendering assets omitted, the
descriptor `HashMap` embedded as a lookup function. -/
structure EnemyManager where
  boss_lifebar_entity : ℕ
  descriptors : String → Option EnemyDescriptor
  timeline : Timeline

/-- Construction of the per-instance motion pattern at spawn time
(enemy.rs:147-164). -/
def motionOfKind (k : MotionPatternKind) (position : Vec3Q) : MotionState :=
  match k with
  | .enterStay => .enterStay { phase := .idle, enter_height := position.y }
  | .flyBy =>
    .flyBy { start := position,
             direction := if 0 < position.y then ⟨-1, 1/4, 0⟩ else ⟨-1, -1/4, 0⟩,
             has_fired := false }

/-- Construction of the per-instance fire tag at spawn time
(enemy.rs:166-179); the bullet mesh/material handles it clones are
external assets. -/
def fireTagOfKind (k : FireTagKind) : FireTagState :=
  match k with
  | .spiral => .spiral FireTagSpiral.init
  | .aimBurst => .aimBurst FireTagAimBurst.init

/-- The controller built by `EnemyManager::spawn` for a resolved
descriptor (enemy.rs:181-185). -/
def controllerOfDescriptor (desc : EnemyDescriptor) (position : Vec3Q) : EnemyController :=
  { motion_pattern := some (motionOfKind desc.motion_pattern_kind position),
    fire_tag := some (fireTagOfKind desc.fire_tag_kind),
    fire_tag_started := false,
    life := desc.life,
    remain_life := desc.life }

/-- `EnemyManager::spawn` (enemy.rs:145-212): `none` is the
unknown-descriptor path, which drops the request and only prints the
"Failed to spawn unknown enemy type" diagnostic (enemy.rs:209-211). -/
def EnemyManager.spawn (m : EnemyManager) (desc : String) (position : Vec3Q) :
    Option EnemyController :=
  (m.descriptors desc).map (fun d => controllerOfDescriptor d position)

/-- `EnemyManager::execute_timeline` (enemy.rs:132-143) including the
per-event `spawn` calls: each elapsed event yields either a spawned
controller or `none` (dropped request + diagnostic). -/
def EnemyManager.execute_timeline (m : EnemyManager) (dt : ℚ) :
    EnemyManager × List (Option EnemyController) :=
  let r := executeTimeline m.timeline dt
  ({ m with timeline := r.1 }, r.2.map (fun p => m.spawn p.2.enemy p.2.start_pos))

/-! ## Single-entity life/damage trace (enemy.rs:706-729, game.rs:404-426)

Both damage paths are identical: sum the tick's damage events, subtract
when positive (sending the new remaining life to the lifebar HUD), then
despawn when `remain_life <= 0`.  `LifeState.dead` is the despawned
entity, which the query never yields again. -/

inductive LifeState
  | alive (remain : ℚ)
  | dead
deriving DecidableEq

/-- One tick of the damage path for one entity: new state, whether the
death transition fired this tick, and the lifebar notification payload
(the new remaining life) if damage was applied. -/
def damageTick : LifeState → ℚ → LifeState × Bool × Option ℚ
  | .dead, _ => (.dead, false, none)
  | .alive r, d =>
    let r1 := if 0 < d then r - d else r
    let note := if 0 < d then some r1 else none
    if r1 ≤ 0 then (.dead, true, note) else (.alive r1, false, note)

/-- Trace of `damageTick` over a per-tick damage sequence. -/
def damageRun (s : LifeState) : List ℚ → List (LifeState × Bool × Option ℚ)
  | [] => []
  | d :: ds =>
    let r := damageTick s d
    r :: damageRun r.1 ds

/-! ## Lifebar HUD (src/game.rs:187-369, 876-1073)

The HUD entity's own slide animator and the overbar's fill animator are
external tweening collaborators; `update_hud` only polls
`animator.progress() >= 1. || over_animator.progress() >= 1.`, embedded
as the per-tick oracle flag `completed`.  Screen positions, meshes and
materials are external; a `Color` is an abstract token `ℕ`. -/

/-- `LifebarOrientation` (game.rs:221-225). -/
inductive LifebarOrientation
  | horizontal
  | vertical
deriving DecidableEq

/-- `LifebarFillSeqPhase` (game.rs:227-239). -/
inductive LifebarFillSeqPhase
  | idle
  | slideIn
  | fillUp (i : ℕ)
  | ready
  | slideOut
deriving DecidableEq

/-- `Lifebar` (game.rs:187-189). -/
structure Lifebar where
  color : ℕ
deriving DecidableEq

/-- `LifebarHud` (game.rs:241-264); positions, material handles and the
under/over child entities are external. -/
structure LifebarHud where
  orientation : LifebarOrientation
  lifebars : List Lifebar
  index : ℕ
  life : ℚ
  remain_life : ℚ
  force_update : Bool
  fill_seq : LifebarFillSeqPhase
deriving DecidableEq

/-- `LifebarHud::set_lifebars` (game.rs:357-363).  (The source computes
`self.lifebars.len() - 1` on a `usize`; it is only ever called with a
nonempty color list, where truncated subtraction agrees.) -/
def LifebarHud.set_lifebars (h : LifebarHud) (life : ℚ) (colors : List ℕ) : LifebarHud :=
  { h with lifebars := colors.map Lifebar.mk,
           index := colors.length - 1,
           life := life,
           remain_life := life,
           force_update := true }

/-- Result of one `update_hud` tick for one HUD entity.  `overColor` is
the color-update access `hud.lifebars[hud.index]` (game.rs:1059):
`some c` is the fetched color, `none` models the out-of-bounds panic;
it is only performed when `colorUpdated`.  (The matching "under" access
uses index `hud.index - 1` or the transparent `Color::NONE` and is not
modelled separately.)  `overScale` is the overbar scale written in
`Ready` (game.rs:1044-1052). -/
structure HudTickOut where
  hud : LifebarHud
  colorUpdated : Bool
  overColor : Option ℕ
  overScale : Option (ℚ × ℚ)
deriving DecidableEq

/-- One `update_hud` tick for a single HUD entity (game.rs:876-1073):
`init` carries an `InitLifebarsEvent` payload `(life_per_bar, colors)`,
`showReq` a `ShowLifebarsEvent`, `completed` the polled animation
completion, and `upd` the last matching `UpdateLifebarsEvent` payload. -/
def hudTick (h0 : LifebarHud) (init : Option (ℚ × List ℕ)) (showReq completed : Bool)
    (upd : Option ℚ) : HudTickOut :=
  -- init events (game.rs:899-910)
  let h1 := match init with
    | some p => h0.set_lifebars p.1 p.2
    | none => h0
  -- show events (game.rs:913-943): only from `Idle`; starts the slide-in
  -- tween (external) and restarts from the bottom-most bar
  let h2 := if showReq ∧ h1.fill_seq = LifebarFillSeqPhase.idle then
      { h1 with fill_seq := LifebarFillSeqPhase.slideIn, index := 0 }
    else h1
  -- update section (game.rs:946-1072)
  let needColor0 := h2.force_update
  let h3 := { h2 with force_update := false }
  -- fill-sequence transition (game.rs:954-994)
  let t4 : LifebarHud × Bool :=
    if completed then
      match h3.fill_seq with
      | .slideIn => ({ h3 with fill_seq := .fillUp 0 }, true)
      | .fillUp i =>
        if i + 1 < h3.lifebars.length then
          ({ h3 with index := i + 1, fill_seq := .fillUp (i + 1) }, true)
        else
          ({ h3 with fill_seq := .ready }, needColor0)
      | .slideOut => ({ h3 with fill_seq := .idle }, needColor0)
      | _ => (h3, needColor0)
    else (h3, needColor0)
  -- life updates, only in `Ready` (game.rs:997-1054)
  let t5 : LifebarHud × Bool × Option (ℚ × ℚ) :=
    if t4.1.fill_seq = LifebarFillSeqPhase.ready then
      match upd with
      | some r =>
        let new_index_q := r / t4.1.life
        let over_progress := rustFract new_index_q
        let new_index := (⌊new_index_q⌋).toNat  -- `.floor() as usize` saturates at 0
        let h5 := { t4.1 with remain_life := over_progress * t4.1.life }
        let t6 : LifebarHud × Bool :=
          if h5.index ≠ new_index then ({ h5 with index := new_index }, true)
          else (h5, t4.2)
        (t6.1, t6.2,
         some (match t6.1.orientation with
               | .horizontal => (over_progress, 1)
               | .vertical => (1, over_progress)))
      | none => (t4.1, t4.2, none)
    else (t4.1, t4.2, none)
  -- color update (game.rs:1058-1071)
  let overColor := if t5.2.1 then (t5.1.lifebars.get? t5.1.index).map Lifebar.color else none
  ⟨t5.1, t5.2.1, overColor, t5.2.2⟩

/-- Trace of `hudTick` over per-tick inputs `(showReq, completed, upd)`
with no init events: the list of HUD states after each tick. -/
def hudTrace (h : LifebarHud) : List (Bool × Bool × Option ℚ) → List LifebarHud
  | [] => []
  | t :: ts =>
    let h1 := (hudTick h none t.1 t.2.1 t.2.2).hud
    h1 :: hudTrace h1 ts

/-- Number of ticks whose completion flag was set. -/
def cntCompleted (ins : List (Bool × Bool × Option ℚ)) : ℕ :=
  ins.countP (fun t => t.2.1)

/-- The canonical fill sequence: phase of a show cycle after `k`
animation completions, for `n` lifebar segments. -/
def canonFillPhase (n k : ℕ) : LifebarFillSeqPhase :=
  if k = 0 then .slideIn
  else if k ≤ n then .fillUp (k - 1)
  else .ready

/-- Life state after a sequence of per-tick damage totals. -/
def lifeStateAfter (s : LifeState) : List ℚ → LifeState
  | [] => s
  | d :: ds => lifeStateAfter (damageTick s d).1 ds

/-- Trace of `EnterStayMotion::do_motion` over ticks; each input is
`(dt, polled animator progress)`, and the motion state, translation and
animator flag are threaded while the progress is an external oracle. -/
def enterStayTrace (m : EnterStayMotion) (t : Vec3Q) (pl : Bool) :
    List (ℚ × ℚ) → List (EnterStayMotion × Vec3Q × Bool × MotionResult)
  | [] => []
  | i :: is =>
    let r := m.do_motion i.1 t pl i.2
    r :: enterStayTrace r.1 r.2.1 r.2.2.1 is

/-- The tick's aggregated damage applied to one enemy's remaining life
(enemy.rs:708-719), before the death check. -/
def afterDamageLife (dmg : List DamageEvent) (e : EnemyEntity) : ℚ :=
  let damage := damageFor dmg e.id
  if 0 < damage then e.controller.remain_life - damage else e.controller.remain_life

/-- The lifebar notifications one enemy emits this tick
(enemy.rs:718-724). -/
def enemyNotes (boss : ℕ) (dmg : List DamageEvent) (e : EnemyEntity) : List UpdateLifebarsEvent :=
  if 0 < damageFor dmg e.id then [⟨boss, afterDamageLife dmg e⟩] else []

/-- The update a surviving enemy receives in its turn of the
`update_enemy` loop (enemy.rs:731-739). -/
def enemyAliveStep (dt : ℚ) (player : Vec3Q) (dmg : List DamageEvent) (e : EnemyEntity) :
    EnemyEntity :=
  let c1 := { e.controller with remain_life := afterDamageLife dmg e }
  let u := c1.update dt e.translation player e.translation e.animPlaying e.animProgress
  { e with controller := u.1, translation := u.2.1, animPlaying := u.2.2.1 }

/-- The bullets a surviving enemy emits in its turn of the loop. -/
def enemyAliveBullets (dt : ℚ) (player : Vec3Q) (dmg : List DamageEvent) (e : EnemyEntity) :
    List BulletReq :=
  let c1 := { e.controller with remain_life := afterDamageLife dmg e }
  (c1.update dt e.translation player e.translation e.animPlaying e.animProgress).2.2.2

/-! ## Concrete fixtures for witnesses and counterexamples -/

/-- A boss descriptor as in the shipped enemy database. -/
def bossDescr : EnemyDescriptor :=
  { name := "boss", life := 120, is_boss := true,
    fire_tag_kind := .spiral, motion_pattern_kind := .enterStay, bullet_kind := .pinkDonut }

/-- A small fly-by descriptor. -/
def flyByDescr : EnemyDescriptor :=
  { name := "fly_by", life := 2, is_boss := false,
    fire_tag_kind := .aimBurst, motion_pattern_kind := .flyBy, bullet_kind := .whiteBall }

/-- A manager whose registry knows only `"boss"`, with a timeline whose
first event dangles (names `"ghost"`). -/
def sampleManager : EnemyManager :=
  { boss_lifebar_entity := 7,
    descriptors := fun n => if n = "boss" then some bossDescr else none,
    timeline := timelineInit [⟨1, "ghost", Vec3Q.zero⟩, ⟨2, "boss", ⟨3, 1, 0⟩⟩] }

/-- A boss lifebar HUD in `Ready`: 3 segments of capacity 100, currently
draining the topmost segment. -/
def readyHud : LifebarHud :=
  { orientation := .horizontal, lifebars := [⟨10⟩, ⟨20⟩, ⟨30⟩], index := 2,
    life := 100, remain_life := 50, force_update := false, fill_seq := .ready }

/-- A freshly spawned lifebar HUD, off-screen and idle. -/
def idleHud : LifebarHud :=
  { orientation := .vertical, lifebars := [⟨1⟩, ⟨2⟩, ⟨3⟩], index := 2,
    life := 100, remain_life := 300, force_update := false, fill_seq := .idle }

/-- Three freshly spawned enemies for the update-loop fixtures. -/
def entA : EnemyEntity :=
  ⟨1, controllerOfDescriptor bossDescr ⟨4, 0, 0⟩, ⟨4, 0, 0⟩, false, 0⟩

def entB : EnemyEntity :=
  ⟨2, controllerOfDescriptor flyByDescr ⟨4, -1, 0⟩, ⟨4, -1, 0⟩, false, 0⟩

def entC : EnemyEntity :=
  ⟨3, controllerOfDescriptor flyByDescr ⟨4, 1, 0⟩, ⟨4, 1, 0⟩, false, 0⟩

/-- The C2 volley property for a 6-arm spiral, for one `execute` tick in
which a volley fires: the emitted bullets are exactly the arm angles
`base_angle + k * (1/6 turn)` (i.e. `k * 2π/6` in radians) for the
non-suppressed `k < 6`; the volley has 5 bullets in iterations `0-4` of
each 25-iteration cycle and 6 otherwise; and the suppressed arm index is
a valid arm achieving the minimal distance to the fixed aim reference. -/
def SpiralVolleyProp (s : FireTagSpiral) (dt : ℚ) : Prop :=
  (s.execute dt).2 =
      ((List.range 6).filter
          (fun j => decide (5 ≤ (s.cur_iter + 1) % 25 ∨
            j ≠ aimArmIdx (rustRem s.cur_angle 1) 6))).map
        (fun (j : ℕ) => Int.fract (rustRem s.cur_angle 1 + (j : ℚ) * (1 / 6))) ∧
  (s.execute dt).2.length = (if (s.cur_iter + 1) % 25 < 5 then 5 else 6) ∧
  aimArmIdx (rustRem s.cur_angle 1) 6 < 6 ∧
  (∀ j < 6, armAimDist (rustRem s.cur_angle 1) 6 (aimArmIdx (rustRem s.cur_angle 1) 6)
      ≤ armAimDist (rustRem s.cur_angle 1) 6 j)

/-- The C3 (amended) damage/death property over a damage-event trace:
the per-tick state is fully determined by cumulative damage (with no
lower clamping: the remaining life the death tick computes and notifies
may be negative), the remaining life never exceeds `L` and is
non-increasing, and the death transition fires exactly once, on the
first tick whose cumulative damage reaches `L`. -/
def DamageDeathProp (L : ℚ) (ds : List ℚ) : Prop :=
  (∀ i, lifeStateAfter (.alive L) (ds.take i) =
      if (ds.take i).sum < L then .alive (L - (ds.take i).sum) else .dead) ∧
  (∀ i j r q, i ≤ j → lifeStateAfter (.alive L) (ds.take i) = .alive r →
      lifeStateAfter (.alive L) (ds.take j) = .alive q → q ≤ r ∧ r ≤ L) ∧
  (∀ i d, ds.get? i = some d →
      (damageRun (.alive L) ds).get? i =
        some (damageTick (lifeStateAfter (.alive L) (ds.take i)) d) ∧
      ((damageTick (lifeStateAfter (.alive L) (ds.take i)) d).2.1 = true ↔
        (ds.take i).sum < L ∧ L ≤ (ds.take (i + 1)).sum)) ∧
  (∀ i j di dj, ds.get? i = some di → ds.get? j = some dj →
      (damageTick (lifeStateAfter (.alive L) (ds.take i)) di).2.1 = true →
      (damageTick (lifeStateAfter (.alive L) (ds.take j)) dj).2.1 = true → i = j)

/-- The C8 show-cycle property: along any tick trace, the fill phase is
the canonical function of the number of completed animations so far; the
`FillUp(i)` states appear in ascending order of `i`, each as one
contiguous visit, and every `FillUp(i)` for `i < segment_count` is
visited before `Ready` is ever reached. -/
def HudShowCycleProp (h : LifebarHud) (ins : List (Bool × Bool × Option ℚ)) : Prop :=
  (∀ i r, (hudTrace h ins).get? i = some r →
      r.fill_seq = canonFillPhase h.lifebars.length (cntCompleted (ins.take (i + 1)))) ∧
  (∀ i j a b ri rj, (hudTrace h ins).get? i = some ri →
      (hudTrace h ins).get? j = some rj →
      ri.fill_seq = .fillUp a → rj.fill_seq = .fillUp b → a < b → i < j) ∧
  (∀ i j l a ri rj rl, i ≤ j → j ≤ l →
      (hudTrace h ins).get? i = some ri → (hudTrace h ins).get? j = some rj →
      (hudTrace h ins).get? l = some rl →
      ri.fill_seq = .fillUp a → rl.fill_seq = .fillUp a → rj.fill_seq = .fillUp a) ∧
  (∀ i ri, (hudTrace h ins).get? i = some ri → ri.fill_seq = .ready →
      ∀ a < h.lifebars.length, ∃ j rj, j < i ∧ (hudTrace h ins).get? j = some rj ∧
        rj.fill_seq = .fillUp a)

/-! # Theorems -/

/-! ## Timeline sequencer lemmas -/

theorem timelineScan_spec (t : ℚ) :
    ∀ (evs : List TimelineEvent) (i : ℕ),
      (timelineScan t evs i).1 = i + (timelineScan t evs i).2.length ∧
      (timelineScan t evs i).2.map Prod.fst = List.range' i (timelineScan t evs i).2.length := by
  intro evs
  induction evs with
  | nil => intro i; simp [timelineScan]
  | cons ev rest ih =>
    intro i
    by_cases h : t < ev.time
    · simp [timelineScan, h]
    · obtain ⟨ih1, ih2⟩ := ih (i + 1)
      simp only [timelineScan, if_neg h, List.length_cons, List.map_cons]
      refine ⟨by omega, ?_⟩
      rw [List.range'_succ, ih2]

theorem timelineScan_comp (s t : ℚ) (hst : s ≤ t) :
    ∀ (evs : List TimelineEvent) (i : ℕ),
      timelineScan t evs i =
        ((timelineScan t (evs.drop (timelineScan s evs i).2.length) (timelineScan s evs i).1).1,
         (timelineScan s evs i).2 ++
           (timelineScan t (evs.drop (timelineScan s evs i).2.length) (timelineScan s evs i).1).2) := by
  intro evs
  induction evs with
  | nil => intro i; simp [timelineScan]
  | cons ev rest ih =>
    intro i
    by_cases hs : s < ev.time
    · simp [timelineScan, if_pos hs]
    · have ht : ¬ t < ev.time := not_lt.mpr (le_trans (not_lt.mp hs) hst)
      simp only [timelineScan, if_neg hs, if_neg ht, List.length_cons, List.drop_succ_cons]
      rw [ih (i + 1)]
      simp

theorem executeTimeline_add (tl : Timeline) (d1 d2 : ℚ) (h2 : 0 ≤ d2) :
    executeTimeline tl (d1 + d2) =
      ((executeTimeline (executeTimeline tl d1).1 d2).1,
       (executeTimeline tl d1).2 ++ (executeTimeline (executeTimeline tl d1).1 d2).2) := by
  have hst : tl.time + d1 ≤ tl.time + (d1 + d2) := by linarith
  have hcomp := timelineScan_comp (tl.time + d1) (tl.time + (d1 + d2)) hst
      (tl.events.drop tl.index) tl.index
  have hspec := (timelineScan_spec (tl.time + d1) (tl.events.drop tl.index) tl.index).1
  unfold executeTimeline
  simp only []
  rw [List.drop_drop, ← hspec] at hcomp
  have htime : tl.time + d1 + d2 = tl.time + (d1 + d2) := by ring
  rw [htime, hcomp]

theorem runTimeline_collapse :
    ∀ (dts : List ℚ) (d : ℚ) (tl : Timeline), (∀ x ∈ dts, 0 ≤ x) →
      runTimeline tl (d :: dts) = executeTimeline tl (d + dts.sum) := by
  intro dts
  induction dts with
  | nil =>
    intro d tl _
    simp [runTimeline]
  | cons d2 rest ih =>
    intro d tl h
    have hrest : ∀ x ∈ rest, 0 ≤ x := fun x hx => h x (List.mem_cons_of_mem _ hx)
    have hd2 : 0 ≤ d2 := h d2 (List.mem_cons_self _ _)
    have hsum : 0 ≤ d2 + rest.sum :=
      add_nonneg hd2 (List.sum_nonneg hrest)
    have hadd := executeTimeline_add tl d (d2 + rest.sum) hsum
    have hone : runTimeline tl (d :: d2 :: rest) =
        ((runTimeline (executeTimeline tl d).1 (d2 :: rest)).1,
         (executeTimeline tl d).2 ++ (runTimeline (executeTimeline tl d).1 (d2 :: rest)).2) := rfl
    rw [hone, ih d2 (executeTimeline tl d).1 hrest, List.sum_cons, hadd]

/-- C1: for every pair of nonnegative, nonempty `dt` sequences with the
same total, the Timeline Sequencer produces exactly the same spawn
requests (the spawned set depends only on total elapsed time, not on the
chunking), and no timeline event is spawned more than once (the spawned
event indices are duplicate-free). -/
theorem timeline_rechunk_and_spawn_once (events : List TimelineEvent) (dts1 dts2 : List ℚ)
    (h1 : ∀ d ∈ dts1, 0 ≤ d) (h2 : ∀ d ∈ dts2, 0 ≤ d)
    (hne1 : dts1 ≠ []) (hne2 : dts2 ≠ [])
    (hsum : dts1.sum = dts2.sum) :
    (runTimeline (timelineInit events) dts1).2 = (runTimeline (timelineInit events) dts2).2 ∧
    ((runTimeline (timelineInit events) dts1).2.map Prod.fst).Nodup := by
  obtain ⟨a, as, rfl⟩ := List.exists_cons_of_ne_nil hne1
  obtain ⟨b, bs, rfl⟩ := List.exists_cons_of_ne_nil hne2
  have ha : ∀ x ∈ as, 0 ≤ x := fun x hx => h1 x (List.mem_cons_of_mem _ hx)
  have hb : ∀ x ∈ bs, 0 ≤ x := fun x hx => h2 x (List.mem_cons_of_mem _ hx)
  rw [runTimeline_collapse as a _ ha, runTimeline_collapse bs b _ hb]
  simp only [List.sum_cons] at hsum
  rw [hsum]
  refine ⟨rfl, ?_⟩
  have hspec := (timelineScan_spec ((timelineInit events).time + (b + bs.sum))
      ((timelineInit events).events.drop (timelineInit events).index)
      (timelineInit events).index).2
  unfold executeTimeline
  simp only []
  rw [hspec]
  exact List.nodup_range' _ _

/-- Witness for C1 at a concrete two-event timeline and the chunkings
`[2]` and `[1, 1]`. -/
theorem timeline_rechunk_and_spawn_once_witness :
    (runTimeline (timelineInit [⟨1, "a", Vec3Q.zero⟩, ⟨3, "b", Vec3Q.zero⟩]) [2]).2 =
      (runTimeline (timelineInit [⟨1, "a", Vec3Q.zero⟩, ⟨3, "b", Vec3Q.zero⟩]) [1, 1]).2 ∧
    ((runTimeline (timelineInit [⟨1, "a", Vec3Q.zero⟩, ⟨3, "b", Vec3Q.zero⟩]) [2]).2.map
        Prod.fst).Nodup :=
  timeline_rechunk_and_spawn_once [⟨1, "a", Vec3Q.zero⟩, ⟨3, "b", Vec3Q.zero⟩] [2] [1, 1]
    (by norm_num) (by norm_num) (by simp) (by simp) (by norm_num)

/-! ## Spiral fire pattern lemmas -/

theorem rustRem_one_eq_fract (x : ℚ) (h : 0 ≤ x) : rustRem x 1 = Int.fract x := by
  unfold rustRem qtrunc
  rw [div_one, if_pos h, Int.fract]
  ring

theorem fract_fract_add (x y : ℚ) : Int.fract (Int.fract x + y) = Int.fract (x + y) := by
  have h : Int.fract x + y = x + y - (⌊x⌋ : ℚ) := by rw [Int.fract]; ring
  rw [h, Int.fract_sub_int]

theorem minByDistFold_mem (f : ℕ → ℚ) :
    ∀ (l : List ℕ) (b : ℕ), minByDistFold f l b = b ∨ minByDistFold f l b ∈ l := by
  intro l
  induction l with
  | nil => intro b; exact Or.inl rfl
  | cons x xs ih =>
    intro b
    simp only [minByDistFold]
    by_cases hc : f x < f b
    · rw [if_pos hc]
      rcases ih x with h | h
      · rw [h]; exact Or.inr (List.mem_cons_self x xs)
      · exact Or.inr (List.mem_cons_of_mem x h)
    · rw [if_neg hc]
      rcases ih b with h | h
      · exact Or.inl h
      · exact Or.inr (List.mem_cons_of_mem x h)

theorem minByDistFold_le (f : ℕ → ℚ) :
    ∀ (l : List ℕ) (b : ℕ),
      f (minByDistFold f l b) ≤ f b ∧ ∀ x ∈ l, f (minByDistFold f l b) ≤ f x := by
  intro l
  induction l with
  | nil => intro b; exact ⟨le_refl _, by simp⟩
  | cons x xs ih =>
    intro b
    simp only [minByDistFold]
    by_cases hc : f x < f b
    · rw [if_pos hc]
      obtain ⟨h1, h2⟩ := ih x
      refine ⟨le_trans h1 (le_of_lt hc), ?_⟩
      intro y hy
      rcases List.mem_cons.mp hy with rfl | hy
      · exact h1
      · exact h2 y hy
    · rw [if_neg hc]
      obtain ⟨h1, h2⟩ := ih b
      refine ⟨h1, ?_⟩
      intro y hy
      rcases List.mem_cons.mp hy with rfl | hy
      · exact le_trans h1 (not_lt.mp hc)
      · exact h2 y hy

theorem aimArmIdx_lt (base : ℚ) (n : ℕ) (hn : 0 < n) : aimArmIdx base n < n := by
  obtain ⟨m, rfl⟩ := Nat.exists_eq_add_of_lt hn
  simp only [aimArmIdx, Nat.zero_add, List.range_succ_eq_map]
  rcases minByDistFold_mem (armAimDist base (m + 1)) ((List.range m).map Nat.succ) 0 with h | h
  · omega
  · obtain ⟨j, hj, hjs⟩ := List.mem_map.mp h
    have := List.mem_range.mp hj
    omega

theorem aimArmIdx_min (base : ℚ) (n : ℕ) :
    ∀ j < n, armAimDist base n (aimArmIdx base n) ≤ armAimDist base n j := by
  intro j hj
  have hn : 0 < n := lt_of_le_of_lt (Nat.zero_le j) hj
  obtain ⟨m, rfl⟩ := Nat.exists_eq_add_of_lt hn
  simp only [aimArmIdx, Nat.zero_add, List.range_succ_eq_map]
  obtain ⟨h1, h2⟩ := minByDistFold_le (armAimDist base (m + 1)) ((List.range m).map Nat.succ) 0
  rcases Nat.eq_zero_or_pos j with rfl | hjpos
  · exact h1
  · refine h2 j ?_
    refine List.mem_map.mpr ⟨j - 1, List.mem_range.mpr (by omega), by omega⟩

theorem spiralArmLoop_eq (iter aim : ℕ) (δ : ℚ) (hδ : 0 ≤ δ) :
    ∀ (k idx : ℕ) (a : ℚ), 0 ≤ a → a < 1 →
      spiralArmLoop iter aim δ k idx a =
        ((List.range' idx k).filter (fun j => decide (5 ≤ iter % 25 ∨ j ≠ aim))).map
          (fun j => Int.fract (a + (j - idx : ℕ) * δ)) := by
  intro k
  induction k with
  | zero => intro idx a _ _; simp [spiralArmLoop]
  | succ k ih =>
    intro idx a ha0 ha1
    have hfr : rustRem (a + δ) 1 = Int.fract (a + δ) := rustRem_one_eq_fract _ (by linarith)
    have hfa : Int.fract a = a := Int.fract_eq_self.mpr ⟨ha0, ha1⟩
    have htail : ((List.range' (idx + 1) k).filter
          (fun j => decide (5 ≤ iter % 25 ∨ j ≠ aim))).map
            (fun j => Int.fract (Int.fract (a + δ) + (j - (idx + 1) : ℕ) * δ))
        = ((List.range' (idx + 1) k).filter
            (fun j => decide (5 ≤ iter % 25 ∨ j ≠ aim))).map
              (fun j => Int.fract (a + (j - idx : ℕ) * δ)) := by
      apply List.map_congr_left
      intro j hj
      have hjm : idx + 1 ≤ j := (List.mem_range'_1.mp (List.mem_of_mem_filter hj)).1
      rw [fract_fract_add]
      congr 1
      have h1 : ((j - idx : ℕ) : ℚ) = ((j - (idx + 1) : ℕ) : ℚ) + 1 := by
        have h2 : (j - idx) = (j - (idx + 1)) + 1 := by omega
        rw [h2]; push_cast; ring
      rw [h1]; ring
    simp only [spiralArmLoop, hfr]
    rw [ih (idx + 1) _ (Int.fract_nonneg _) (Int.fract_lt_one _), htail]
    rw [List.range'_succ, List.filter_cons]
    by_cases hc : 5 ≤ iter % 25 ∨ idx ≠ aim
    · rw [if_pos hc, if_pos (by simpa using hc), List.map_cons]
      simp [hfa]
    · rw [if_neg hc, if_neg (by simpa using hc)]
      simp

/-- C2: for the spiral fire pattern with `arm_count = 6`, in every tick
where a volley fires (`fire_timer + dt >= fire_interval`), the volley
consists of bullets at angles `base_angle + k * (2π/6)` for `k` in
`[0, 6)`; during iterations 0-4 of each 25-iteration cycle exactly the
one arm closest to the fixed aim reference is suppressed (5 bullets),
and in all other iterations all 6 arms fire (6 bullets). -/
theorem spiral_volley_spec (s : FireTagSpiral) (dt : ℚ)
    (h6 : s.arms_count = 6) (hang : 0 ≤ s.cur_angle)
    (hfire : s.fire_delay ≤ s.cur_time + dt) :
    SpiralVolleyProp s dt := by
  have hbase : rustRem s.cur_angle 1 = Int.fract s.cur_angle := rustRem_one_eq_fract _ hang
  have hb0 : (0 : ℚ) ≤ rustRem s.cur_angle 1 := by rw [hbase]; exact Int.fract_nonneg _
  have hb1 : rustRem s.cur_angle 1 < 1 := by rw [hbase]; exact Int.fract_lt_one _
  have haim : aimArmIdx (rustRem s.cur_angle 1) 6 < 6 := aimArmIdx_lt _ 6 (by norm_num)
  have hexec : (s.execute dt).2 =
      spiralArmLoop (s.cur_iter + 1) (aimArmIdx (rustRem s.cur_angle 1) 6)
        (1 / ((6 : ℕ) : ℚ)) 6 0 (rustRem s.cur_angle 1) := by
    simp only [FireTagSpiral.execute, h6]
    rw [if_pos hfire]
  have hloop := spiralArmLoop_eq (s.cur_iter + 1) (aimArmIdx (rustRem s.cur_angle 1) 6)
      (1 / ((6 : ℕ) : ℚ)) (by norm_num) 6 0 (rustRem s.cur_angle 1) hb0 hb1
  have hmain : (s.execute dt).2 =
      ((List.range 6).filter
          (fun j => decide (5 ≤ (s.cur_iter + 1) % 25 ∨
            j ≠ aimArmIdx (rustRem s.cur_angle 1) 6))).map
        (fun (j : ℕ) => Int.fract (rustRem s.cur_angle 1 + (j : ℚ) * (1 / 6))) := by
    rw [hexec, hloop, ← List.range_eq_range']
    apply List.map_congr_left
    intro j _
    norm_num
  refine ⟨hmain, ?_, haim, aimArmIdx_min _ 6⟩
  rw [hmain, List.length_map]
  by_cases h25 : 5 ≤ (s.cur_iter + 1) % 25
  · rw [if_neg (by omega)]
    have hfe : ((List.range 6).filter
        (fun j => decide (5 ≤ (s.cur_iter + 1) % 25 ∨
          j ≠ aimArmIdx (rustRem s.cur_angle 1) 6))) = List.range 6 := by
      apply List.filter_eq_self.mpr
      intro j _
      exact decide_eq_true (Or.inl h25)
    rw [hfe, List.length_range]
  · rw [if_pos (by omega)]
    have hfe : ((List.range 6).filter
        (fun j => decide (5 ≤ (s.cur_iter + 1) % 25 ∨
          j ≠ aimArmIdx (rustRem s.cur_angle 1) 6)))
        = ((List.range 6).filter (fun j => j != aimArmIdx (rustRem s.cur_angle 1) 6)) := by
      apply List.filter_congr
      intro j _
      by_cases hja : j = aimArmIdx (rustRem s.cur_angle 1) 6
      · simp [h25, hja]
      · simp [h25, hja]
    rw [hfe, ← List.Nodup.erase_eq_filter (List.nodup_range 6),
      List.length_erase_of_mem (List.mem_range.mpr haim), List.length_range]

/-- Witness for C2 at the default spiral state and a full-interval tick:
iteration 1 of the first cycle, so the aim arm (index 3 at base angle 0)
is suppressed and 5 bullets fire. -/
theorem spiral_volley_spec_witness :
    FireTagSpiral.init.arms_count = 6 ∧ (0 : ℚ) ≤ FireTagSpiral.init.cur_angle ∧
    FireTagSpiral.init.fire_delay ≤ FireTagSpiral.init.cur_time + 1 / 25 ∧
    SpiralVolleyProp FireTagSpiral.init (1 / 25) :=
  ⟨rfl, by norm_num [FireTagSpiral.init], by norm_num [FireTagSpiral.init],
    spiral_volley_spec FireTagSpiral.init (1 / 25) rfl
      (by norm_num [FireTagSpiral.init]) (by norm_num [FireTagSpiral.init])⟩

/-! ## Damage model lemmas (C3) -/

theorem damageTick_alive (r d : ℚ) :
    damageTick (.alive r) d =
      (if (if 0 < d then r - d else r) ≤ 0 then LifeState.dead
        else .alive (if 0 < d then r - d else r),
       decide ((if 0 < d then r - d else r) ≤ 0),
       if 0 < d then some (if 0 < d then r - d else r) else none) := by
  unfold damageTick
  by_cases h1 : (if 0 < d then r - d else r) ≤ 0
  · rw [if_pos h1]
    simp [h1]
  · rw [if_neg h1]
    simp [h1]

theorem lifeStateAfter_dead (ds : List ℚ) : lifeStateAfter .dead ds = .dead := by
  induction ds with
  | nil => rfl
  | cons d rest ih => exact ih

theorem lifeStateAfter_char :
    ∀ (ds : List ℚ) (r : ℚ), 0 < r → (∀ d ∈ ds, 0 ≤ d) →
      lifeStateAfter (.alive r) ds =
        if ds.sum < r then .alive (r - ds.sum) else .dead := by
  intro ds
  induction ds with
  | nil => intro r hr _; simp [lifeStateAfter, hr]
  | cons d rest ih =>
    intro r hr h
    have hd : 0 ≤ d := h d (List.mem_cons_self _ _)
    have hrest : ∀ x ∈ rest, 0 ≤ x := fun x hx => h x (List.mem_cons_of_mem _ hx)
    have hstep : (damageTick (.alive r) d).1 =
        if r - d ≤ 0 then .dead else .alive (r - d) := by
      rcases lt_or_eq_of_le hd with hd1 | hd1
      · simp only [damageTick, if_pos hd1]
        split <;> simp_all
      · simp only [damageTick, ← hd1]
        norm_num
        split <;> simp_all
    show lifeStateAfter (damageTick (.alive r) d).1 rest = _
    rw [hstep]
    by_cases hdie : r - d ≤ 0
    · rw [if_pos hdie, lifeStateAfter_dead]
      have hs : (0 : ℚ) ≤ rest.sum := List.sum_nonneg hrest
      rw [List.sum_cons, if_neg (by linarith)]
    · rw [if_neg hdie]
      have hrd : 0 < r - d := by linarith
      rw [ih (r - d) hrd hrest, List.sum_cons]
      by_cases hlt : rest.sum < r - d
      · rw [if_pos hlt, if_pos (by linarith)]
        congr 1
        ring
      · rw [if_neg hlt, if_neg (by push_neg at hlt ⊢; linarith)]

theorem damageRun_get? :
    ∀ (ds : List ℚ) (s : LifeState) (i : ℕ) (d : ℚ), ds.get? i = some d →
      (damageRun s ds).get? i = some (damageTick (lifeStateAfter s (ds.take i)) d) := by
  intro ds
  induction ds with
  | nil => intro s i d h; simp at h
  | cons d0 rest ih =>
    intro s i d h
    cases i with
    | zero =>
      simp only [List.get?] at h
      injection h with h
      subst h
      rfl
    | succ i =>
      simp only [List.get?] at h
      show (damageRun (damageTick s d0).1 rest).get? i = _
      exact ih (damageTick s d0).1 i d h

theorem take_sum_mono (ds : List ℚ) (hds : ∀ d ∈ ds, 0 ≤ d) (i j : ℕ) (hij : i ≤ j) :
    (ds.take i).sum ≤ (ds.take j).sum := by
  have h1 : ds.take i = (ds.take j).take i := by rw [List.take_take, min_eq_left hij]
  have h2 : (ds.take j).take i ++ (ds.take j).drop i = ds.take j := List.take_append_drop _ _
  have h3 : (0 : ℚ) ≤ ((ds.take j).drop i).sum := by
    apply List.sum_nonneg
    intro x hx
    exact hds x (List.take_subset _ _ (List.drop_subset _ _ hx))
  calc (ds.take i).sum = ((ds.take j).take i).sum := by rw [h1]
    _ ≤ ((ds.take j).take i).sum + ((ds.take j).drop i).sum := by linarith
    _ = (ds.take j).sum := by rw [← List.sum_append, h2]

theorem take_succ_sum (ds : List ℚ) (i : ℕ) (d : ℚ) (h : ds.get? i = some d) :
    (ds.take (i + 1)).sum = (ds.take i).sum + d := by
  rw [List.take_succ, ← List.get?_eq_getElem?, h]
  simp

/-- C3 counterexample: an entity with `max_life = 1` receiving a damage
event of 2 is driven to remaining life `-1`, which is **not** clamped
into `[0, max_life]`: the death tick stores and notifies the lifebar HUD
with the negative value (the entity is then despawned). -/
theorem damage_not_clamped_counterexample :
    (damageTick (LifeState.alive 1) 2).2.2 = some (-1) ∧
    ¬ (0 : ℚ) ≤ -1 ∧
    (damageTick (LifeState.alive 1) 2).1 = LifeState.dead := by
  refine ⟨?_, by norm_num, ?_⟩ <;> norm_num [damageTick]

/-- C3 (amended): for an entity with `max_life = L > 0` and a sequence of
nonnegative per-tick damage totals, the remaining life after the damage
step never exceeds `L` and is non-increasing, and the death transition
(despawn) fires exactly once, on the first tick whose cumulative damage
reaches `L`; but the remaining life is **not** clamped at zero — on the
death tick the stored/notified value is `L - cumulative damage`, which
may be negative. -/
theorem damage_death_once (L : ℚ) (ds : List ℚ) (hL : 0 < L)
    (hds : ∀ d ∈ ds, 0 ≤ d) : DamageDeathProp L ds := by
  have htake : ∀ i, ∀ d ∈ ds.take i, (0 : ℚ) ≤ d :=
    fun i d hd => hds d (List.take_subset _ _ hd)
  have hchar : ∀ i, lifeStateAfter (.alive L) (ds.take i) =
      if (ds.take i).sum < L then .alive (L - (ds.take i).sum) else .dead :=
    fun i => lifeStateAfter_char (ds.take i) L hL (htake i)
  have hflag : ∀ i d, ds.get? i = some d →
      ((damageTick (lifeStateAfter (.alive L) (ds.take i)) d).2.1 = true ↔
        (ds.take i).sum < L ∧ L ≤ (ds.take (i + 1)).sum) := by
    intro i d hget
    have hd : 0 ≤ d := hds d (List.get?_mem hget)
    have hsucc := take_succ_sum ds i d hget
    rw [hchar i]
    by_cases hlive : (ds.take i).sum < L
    · rw [if_pos hlive, damageTick_alive]
      simp only [decide_eq_true_eq]
      by_cases hd1 : 0 < d
      · rw [if_pos hd1]
        constructor
        · intro hfl
          exact ⟨hlive, by linarith⟩
        · intro hcum
          obtain ⟨_, hcum⟩ := hcum
          linarith
      · rw [if_neg hd1]
        push_neg at hd1
        constructor
        · intro hfl
          linarith
        · intro hcum
          obtain ⟨_, hcum⟩ := hcum
          linarith
    · rw [if_neg hlive]
      simp only [damageTick]
      constructor
      · intro hfl
        exact absurd hfl (by simp)
      · intro hcum
        obtain ⟨hl, _⟩ := hcum
        exact absurd hl hlive
  refine ⟨hchar, ?_, ?_, ?_⟩
  · intro i j r q hij hi hj
    rw [hchar i] at hi
    rw [hchar j] at hj
    by_cases h1 : (ds.take i).sum < L
    · rw [if_pos h1] at hi
      by_cases h2 : (ds.take j).sum < L
      · rw [if_pos h2] at hj
        injection hi with hi
        injection hj with hj
        have hmono := take_sum_mono ds hds i j hij
        have hs0 : (0 : ℚ) ≤ (ds.take i).sum := List.sum_nonneg (htake i)
        constructor
        · rw [← hi, ← hj]; linarith
        · rw [← hi]; linarith
      · rw [if_neg h2] at hj; exact absurd hj (by simp)
    · rw [if_neg h1] at hi; exact absurd hi (by simp)
  · intro i d hget
    exact ⟨damageRun_get? ds _ i d hget, hflag i d hget⟩
  · intro i j di dj hgi hgj hfi hfj
    obtain ⟨hi1, hi2⟩ := (hflag i di hgi).mp hfi
    obtain ⟨hj1, hj2⟩ := (hflag j dj hgj).mp hfj
    by_contra hne
    rcases Nat.lt_or_ge i j with hlt | hge
    · have : (ds.take (i + 1)).sum ≤ (ds.take j).sum := take_sum_mono ds hds _ _ hlt
      linarith
    · have hlt : j < i := by omega
      have : (ds.take (j + 1)).sum ≤ (ds.take i).sum := take_sum_mono ds hds _ _ hlt
      linarith

/-- Witness for C3 at `L = 1` and the damage trace `[0, 2, 5]`: the
entity survives the zero-damage tick and dies exactly on the second
tick. -/
theorem damage_death_once_witness :
    (0 : ℚ) < 1 ∧ (∀ d ∈ ([0, 2, 5] : List ℚ), 0 ≤ d) ∧ DamageDeathProp 1 [0, 2, 5] :=
  ⟨by norm_num, by norm_num, damage_death_once 1 [0, 2, 5] (by norm_num) (by norm_num)⟩

/-! ## Lifebar HUD `Ready` update lemmas (C4) -/

theorem hudTick_ready_update (h : LifebarHud) (sr c : Bool) (r : ℚ)
    (hready : h.fill_seq = LifebarFillSeqPhase.ready) :
    (hudTick h none sr c (some r)).hud.index = (⌊r / h.life⌋).toNat ∧
    (hudTick h none sr c (some r)).hud.fill_seq = LifebarFillSeqPhase.ready ∧
    (hudTick h none sr c (some r)).hud.lifebars = h.lifebars := by
  by_cases hix : h.index = (⌊r / h.life⌋).toNat <;>
    cases c <;>
      simp [hudTick, hready, hix]

/-- C4 counterexample: a `Ready` lifebar HUD with 3 segments of capacity
100 consuming a life update of exactly `3 * 100` (the full-life value, an
exact multiple of the segment capacity) adopts `active_segment_index = 3`,
which is **not** a valid index into the 3 segments — and the triggered
color update accesses `lifebars[3]` out of bounds (a panic in the
source). -/
theorem hud_full_multiple_index_invalid :
    (hudTick readyHud none false false (some 300)).hud.index = 3 ∧
    ¬ (hudTick readyHud none false false (some 300)).hud.index <
        (hudTick readyHud none false false (some 300)).hud.lifebars.length ∧
    (hudTick readyHud none false false (some 300)).colorUpdated = true ∧
    (hudTick readyHud none false false (some 300)).overColor = none := by
  have hfl : (⌊(300 : ℚ) / (100 : ℚ)⌋) = 3 := by norm_num
  norm_num [hudTick, readyHud, hfl, show Int.toNat 3 = 3 from rfl]

/-- C4 (amended): while `fill_phase = Ready`, consuming a life update
with remaining life in `[0, segment_capacity * segment_count)` leaves
`active_segment_index = ⌊remaining / segment_capacity⌋`, a valid index
into the segments; but at exactly the full-life value
`segment_capacity * segment_count` the index becomes `segment_count`,
out of bounds (see the counterexample). -/
theorem hud_ready_update_index (h : LifebarHud) (sr c : Bool) (r : ℚ)
    (hready : h.fill_seq = LifebarFillSeqPhase.ready) (hlife : 0 < h.life)
    (hr0 : 0 ≤ r) (hrlt : r < h.life * h.lifebars.length) :
    (hudTick h none sr c (some r)).hud.index <
      (hudTick h none sr c (some r)).hud.lifebars.length ∧
    (hudTick h none sr c (some r)).hud.index = (⌊r / h.life⌋).toNat := by
  obtain ⟨hidx, _, hbars⟩ := hudTick_ready_update h sr c r hready
  rw [hidx, hbars]
  refine ⟨?_, rfl⟩
  have hq : r / h.life < (h.lifebars.length : ℚ) := by
    rw [div_lt_iff hlife]
    calc r < h.life * h.lifebars.length := hrlt
      _ = (h.lifebars.length : ℚ) * h.life := by ring
  have hfl : ⌊r / h.life⌋ < (h.lifebars.length : ℤ) := by
    apply Int.floor_lt.mpr
    exact_mod_cast hq
  have h0 : 0 ≤ ⌊r / h.life⌋ := Int.floor_nonneg.mpr (div_nonneg hr0 (le_of_lt hlife))
  omega

/-- Witness for C4 (amended) at the concrete `Ready` HUD and remaining
life 150: index becomes `⌊150/100⌋ = 1 < 3`. -/
theorem hud_ready_update_index_witness :
    readyHud.fill_seq = LifebarFillSeqPhase.ready ∧ (0 : ℚ) < readyHud.life ∧
    (0 : ℚ) ≤ 150 ∧ (150 : ℚ) < readyHud.life * readyHud.lifebars.length ∧
    ((hudTick readyHud none false false (some 150)).hud.index <
        (hudTick readyHud none false false (some 150)).hud.lifebars.length ∧
      (hudTick readyHud none false false (some 150)).hud.index = (⌊(150 : ℚ) / readyHud.life⌋).toNat) :=
  ⟨rfl, by norm_num [readyHud], by norm_num, by norm_num [readyHud],
    hud_ready_update_index readyHud false false 150 rfl (by norm_num [readyHud])
      (by norm_num) (by norm_num [readyHud])⟩

/-! ## EnterStay motion lemmas (C5) -/

theorem enterStayTrace_stay :
    ∀ (ins : List (ℚ × ℚ)) (h0 : ℚ) (t : Vec3Q) (pl : Bool) (i : ℕ)
      (r : EnterStayMotion × Vec3Q × Bool × MotionResult),
      (enterStayTrace ⟨.stay, h0⟩ t pl ins).get? i = some r →
      r = (⟨.stay, h0⟩, t, pl, MotionResult.doNothing) := by
  intro ins
  induction ins with
  | nil => intro h0 t pl i r h; simp [enterStayTrace] at h
  | cons p ps ih =>
    intro h0 t pl i r h
    cases i with
    | zero =>
      simp only [enterStayTrace, EnterStayMotion.do_motion, List.get?] at h
      injection h with h
      exact h.symm
    | succ i =>
      simp only [enterStayTrace, EnterStayMotion.do_motion, List.get?] at h
      exact ih h0 t pl i r h

theorem enterStayTrace_enter :
    ∀ (ins : List (ℚ × ℚ)) (h0 : ℚ) (t : Vec3Q) (pl : Bool) (i : ℕ)
      (r : EnterStayMotion × Vec3Q × Bool × MotionResult),
      (enterStayTrace ⟨.enter, h0⟩ t pl ins).get? i = some r →
      (r.2.2.2 = MotionResult.startFireTag ↔
        ((∃ p, ins.get? i = some p ∧ 1 ≤ p.2) ∧
          ∀ j p, j < i → ins.get? j = some p → p.2 < 1)) := by
  intro ins
  induction ins with
  | nil => intro h0 t pl i r h; simp [enterStayTrace] at h
  | cons p ps ih =>
    intro h0 t pl i r h
    by_cases hp : 1 ≤ p.2
    · simp only [enterStayTrace, EnterStayMotion.do_motion, if_pos hp, List.get?] at h
      cases i with
      | zero =>
        injection h with h
        subst h
        simp only [List.get?]
        constructor
        · intro _
          exact ⟨⟨p, rfl, hp⟩, fun j q hj => absurd hj (Nat.not_lt_zero j)⟩
        · intro _
          trivial
      | succ i =>
        have hr := enterStayTrace_stay ps h0 t true i r h
        subst hr
        simp only [List.get?]
        constructor
        · intro hfl
          exact absurd hfl (by simp)
        · intro hc
          obtain ⟨_, hall⟩ := hc
          have := hall 0 p (Nat.succ_pos i) rfl
          linarith
    · simp only [enterStayTrace, EnterStayMotion.do_motion, if_neg hp, List.get?] at h
      cases i with
      | zero =>
        injection h with h
        subst h
        simp only [List.get?]
        constructor
        · intro hfl
          exact absurd hfl (by simp)
        · intro hc
          obtain ⟨⟨q, hq, hq2⟩, _⟩ := hc
          injection hq with hq
          subst hq
          linarith
      | succ i =>
        have hiff := ih h0 t pl i r h
        rw [hiff]
        simp only [List.get?]
        constructor
        · intro hc
          obtain ⟨hex, hall⟩ := hc
          refine ⟨hex, ?_⟩
          intro j q hj hq
          cases j with
          | zero =>
            injection hq with hq
            subst hq
            linarith
          | succ j => exact hall j q (by omega) hq
        · intro hc
          obtain ⟨hex, hall⟩ := hc
          exact ⟨hex, fun j q hj hq => hall (j + 1) q (by omega) hq⟩

/-- C5: over any sequence of `do_motion` ticks from the freshly spawned
EnterStay state (phase `Idle`), the `start_fire` result is returned on
tick `i` exactly when `i ≥ 1` (the first tick only enters the `Entering`
phase), the polled animator progress at tick `i` is `>= 1`, and no
earlier `Entering`-phase tick polled a progress `>= 1`; consequently it
is returned at most once over the whole trace. -/
theorem enterStay_fire_exactly_once (h0 : ℚ) (t : Vec3Q) (pl : Bool)
    (ins : List (ℚ × ℚ)) :
    (∀ i r, (enterStayTrace ⟨.idle, h0⟩ t pl ins).get? i = some r →
      (r.2.2.2 = MotionResult.startFireTag ↔
        (1 ≤ i ∧ (∃ p, ins.get? i = some p ∧ 1 ≤ p.2) ∧
          ∀ j p, 1 ≤ j → j < i → ins.get? j = some p → p.2 < 1))) ∧
    (∀ i j ri rj, (enterStayTrace ⟨.idle, h0⟩ t pl ins).get? i = some ri →
      (enterStayTrace ⟨.idle, h0⟩ t pl ins).get? j = some rj →
      ri.2.2.2 = MotionResult.startFireTag → rj.2.2.2 = MotionResult.startFireTag →
      i = j) := by
  have hchar : ∀ i r, (enterStayTrace ⟨.idle, h0⟩ t pl ins).get? i = some r →
      (r.2.2.2 = MotionResult.startFireTag ↔
        (1 ≤ i ∧ (∃ p, ins.get? i = some p ∧ 1 ≤ p.2) ∧
          ∀ j p, 1 ≤ j → j < i → ins.get? j = some p → p.2 < 1)) := by
    cases ins with
    | nil => intro i r h; simp [enterStayTrace] at h
    | cons p ps =>
      intro i r h
      simp only [enterStayTrace, EnterStayMotion.do_motion, List.get?] at h
      cases i with
      | zero =>
        injection h with h
        subst h
        simp only []
        constructor
        · intro hfl
          exact absurd hfl (by simp)
        · intro hc
          omega
      | succ i =>
        have hiff := enterStayTrace_enter ps h0 ⟨5, h0, 0⟩ true i r h
        rw [hiff]
        simp only [List.get?]
        constructor
        · intro hc
          obtain ⟨hex, hall⟩ := hc
          refine ⟨by omega, hex, ?_⟩
          intro j q hj1 hj2 hq
          cases j with
          | zero => omega
          | succ j => exact hall j q (by omega) hq
        · intro hc
          obtain ⟨_, hex, hall⟩ := hc
          exact ⟨hex, fun j q hj hq => hall (j + 1) q (by omega) (by omega) hq⟩
  refine ⟨hchar, ?_⟩
  intro i j ri rj hi hj hfi hfj
  obtain ⟨hi1, ⟨pi, hpi, hpi2⟩, hialll⟩ := (hchar i ri hi).mp hfi
  obtain ⟨hj1, ⟨pj, hpj, hpj2⟩, hjall⟩ := (hchar j rj hj).mp hfj
  by_contra hne
  rcases Nat.lt_or_ge i j with hlt | hge
  · have := hjall i pi hi1 hlt hpi
    linarith
  · have hlt : j < i := by omega
    have := hialll j pj hj1 hlt hpj
    linarith

/-- Witness for C5: with polled progress `[0, 1/2, 3, 9]`, tick 2 is the
first `Entering` tick at progress `>= 1`, so it (and only it) fires. -/
theorem enterStay_fire_exactly_once_witness :
    (∀ i r, (enterStayTrace ⟨.idle, 2⟩ Vec3Q.zero false
        [(0, 0), (0, 1/2), (0, 3), (0, 9)]).get? i = some r →
      (r.2.2.2 = MotionResult.startFireTag ↔
        (1 ≤ i ∧ (∃ p, ([(0, 0), (0, 1/2), (0, 3), (0, 9)] : List (ℚ × ℚ)).get? i = some p ∧ 1 ≤ p.2) ∧
          ∀ j p, 1 ≤ j → j < i →
            ([(0, 0), (0, 1/2), (0, 3), (0, 9)] : List (ℚ × ℚ)).get? j = some p → p.2 < 1))) ∧
    (∀ i j ri rj, (enterStayTrace ⟨.idle, 2⟩ Vec3Q.zero false
        [(0, 0), (0, 1/2), (0, 3), (0, 9)]).get? i = some ri →
      (enterStayTrace ⟨.idle, 2⟩ Vec3Q.zero false
        [(0, 0), (0, 1/2), (0, 3), (0, 9)]).get? j = some rj →
      ri.2.2.2 = MotionResult.startFireTag → rj.2.2.2 = MotionResult.startFireTag → i = j) :=
  enterStay_fire_exactly_once 2 Vec3Q.zero false [(0, 0), (0, 1/2), (0, 3), (0, 9)]

/-! ## AimBurst fire pattern lemmas (C6) -/

theorem aimBurst_execute_inert (s : FireTagAimBurst) (dt : ℚ) (origin player : Vec3Q)
    (h : s.bullet_count ≤ s.cur_iter) : s.execute dt origin player = (s, none) := by
  unfold FireTagAimBurst.execute
  rw [if_neg (by omega)]

theorem aimBurstRun_inert :
    ∀ (ins : List (ℚ × Vec3Q × Vec3Q)) (s : FireTagAimBurst),
      s.bullet_count ≤ s.cur_iter → aimBurstRun s ins = (s, []) := by
  intro ins
  induction ins with
  | nil => intro s _; rfl
  | cons tk ts ih =>
    intro s h
    show (let r := s.execute tk.1 tk.2.1 tk.2.2
          let rest := aimBurstRun r.1 ts
          (rest.1, r.2.toList ++ rest.2)) = (s, [])
    rw [aimBurst_execute_inert s tk.1 tk.2.1 tk.2.2 h]
    simp only [Option.toList_none, List.nil_append]
    rw [ih s h]

theorem aimBurstRun_count :
    ∀ (ins : List (ℚ × Vec3Q × Vec3Q)) (s : FireTagAimBurst),
      s.cur_time = 0 → (∀ t ∈ ins, s.fire_delay ≤ t.1) →
      (aimBurstRun s ins).2.length = min ins.length (s.bullet_count - s.cur_iter) ∧
      (aimBurstRun s ins).1.cur_iter =
        s.cur_iter + min ins.length (s.bullet_count - s.cur_iter) := by
  intro ins
  induction ins with
  | nil => intro s _ _; simp [aimBurstRun]
  | cons tk ts ih =>
    intro s h0 hall
    by_cases hlt : s.cur_iter < s.bullet_count
    · have hdt : s.fire_delay ≤ s.cur_time + tk.1 := by
        rw [h0, zero_add]
        exact hall tk (List.mem_cons_self _ _)
      have hexec : s.execute tk.1 tk.2.1 tk.2.2 =
          ({ s with cur_time := 0, cur_iter := s.cur_iter + 1 },
           some (tk.2.2.sub tk.2.1)) := by
        unfold FireTagAimBurst.execute
        rw [if_pos hlt, if_pos hdt]
      have hstep : aimBurstRun s (tk :: ts) =
          ((aimBurstRun { s with cur_time := 0, cur_iter := s.cur_iter + 1 } ts).1,
           tk.2.2.sub tk.2.1 ::
             (aimBurstRun { s with cur_time := 0, cur_iter := s.cur_iter + 1 } ts).2) := by
        show (let r := s.execute tk.1 tk.2.1 tk.2.2
              let rest := aimBurstRun r.1 ts
              (rest.1, r.2.toList ++ rest.2)) = _
        rw [hexec]
        simp
      have hrest := ih { s with cur_time := 0, cur_iter := s.cur_iter + 1 } rfl
        (fun t ht => hall t (List.mem_cons_of_mem _ ht))
      rw [hstep]
      simp only [List.length_cons]
      obtain ⟨hl, hi⟩ := hrest
      dsimp only [] at hl hi
      constructor
      · rw [hl]; omega
      · rw [hi]; omega
    · push_neg at hlt
      rw [aimBurstRun_inert (tk :: ts) s hlt]
      simp only [List.length_nil, List.length_cons]
      omega

theorem emittedDir_unitX : ∀ d, EmittedDir Vec3Q.unitX d ↔ d = Vec3Q.unitX := by
  intro d
  constructor
  · intro h
    rcases h with ⟨hz, _⟩ | ⟨_, c, hc, hd, hn⟩
    · exact absurd hz (by simp [Vec3Q.unitX, Vec3Q.zero])
    · have hd1 : d = ⟨c, 0, 0⟩ := by
        rw [hd]
        simp [Vec3Q.smul, Vec3Q.unitX]
      rw [hd1] at hn
      simp only [Vec3Q.normSq] at hn
      have hcc : c * c = 1 := by linarith
      rcases mul_self_eq_one_iff.mp hcc with hc1 | hc1
      · rw [hd1, hc1]; rfl
      · rw [hc1] at hc; linarith
  · intro h
    subst h
    refine Or.inr ⟨by simp [Vec3Q.unitX, Vec3Q.zero], 1, one_pos, ?_, ?_⟩
    · simp [Vec3Q.smul, Vec3Q.unitX]
    · simp [Vec3Q.normSq, Vec3Q.unitX]

/-- C6: for the AimBurst pattern at the default state, with the enemy at
`(0,0,0)` and player at `(1,0,0)`, the first fired bullet records the aim
vector `(1,0,0)` whose emitted direction (normalization with forward
fallback) is exactly `(1,0,0)`; once `fired_count` reaches
`bullet_count` the pattern is permanently inert (no input ever fires
again); and over ticks spaced at least `fire_interval` apart, exactly
`min (#ticks) (bullet_count - fired_count)` bullets are emitted (so no
bullet is emitted after the `bullet_count`-th). -/
theorem aimBurst_first_dir_and_inert :
    (∀ dt : ℚ, FireTagAimBurst.init.fire_delay ≤ dt →
      (FireTagAimBurst.init.execute dt Vec3Q.zero Vec3Q.unitX).2 = some Vec3Q.unitX) ∧
    (∀ d, EmittedDir Vec3Q.unitX d ↔ d = Vec3Q.unitX) ∧
    (∀ (s : FireTagAimBurst) (ins : List (ℚ × Vec3Q × Vec3Q)),
      s.bullet_count ≤ s.cur_iter → aimBurstRun s ins = (s, [])) ∧
    (∀ (s : FireTagAimBurst) (ins : List (ℚ × Vec3Q × Vec3Q)),
      s.cur_time = 0 → (∀ t ∈ ins, s.fire_delay ≤ t.1) →
      (aimBurstRun s ins).2.length = min ins.length (s.bullet_count - s.cur_iter) ∧
      (aimBurstRun s ins).1.cur_iter =
        s.cur_iter + min ins.length (s.bullet_count - s.cur_iter)) := by
  refine ⟨?_, emittedDir_unitX, fun s ins h => aimBurstRun_inert ins s h,
    fun s ins h0 hall => aimBurstRun_count ins s h0 hall⟩
  intro dt hdt
  have hlt : FireTagAimBurst.init.cur_iter < FireTagAimBurst.init.bullet_count := by
    norm_num [FireTagAimBurst.init]
  have hd : FireTagAimBurst.init.fire_delay ≤ FireTagAimBurst.init.cur_time + dt := by
    norm_num [FireTagAimBurst.init]
    exact le_trans (by norm_num [FireTagAimBurst.init]) hdt
  unfold FireTagAimBurst.execute
  rw [if_pos hlt, if_pos hd]
  simp [Vec3Q.sub, Vec3Q.zero, Vec3Q.unitX]

/-- Witness for C6: one full-interval tick emits the `(1,0,0)` bullet; a
burst that has fired all 6 bullets ignores any further tick; 8 spaced
ticks from the fresh state emit exactly `min 8 6 = 6` bullets. -/
theorem aimBurst_first_dir_and_inert_witness :
    (FireTagAimBurst.init.execute (1/25) Vec3Q.zero Vec3Q.unitX).2 = some Vec3Q.unitX ∧
    (EmittedDir Vec3Q.unitX Vec3Q.unitX ↔ Vec3Q.unitX = Vec3Q.unitX) ∧
    aimBurstRun ⟨6, 21/10, 1/25, 0, 6⟩ [(1, Vec3Q.zero, Vec3Q.unitX)] = (⟨6, 21/10, 1/25, 0, 6⟩, []) ∧
    (aimBurstRun FireTagAimBurst.init
        (List.replicate 8 ((1 : ℚ)/25, Vec3Q.zero, Vec3Q.unitX))).2.length =
      min (List.replicate 8 ((1 : ℚ)/25, Vec3Q.zero, Vec3Q.unitX)).length
        (FireTagAimBurst.init.bullet_count - FireTagAimBurst.init.cur_iter) :=
  ⟨aimBurst_first_dir_and_inert.1 (1/25) (by norm_num [FireTagAimBurst.init]),
   aimBurst_first_dir_and_inert.2.1 Vec3Q.unitX,
   aimBurst_first_dir_and_inert.2.2.1 ⟨6, 21/10, 1/25, 0, 6⟩ [(1, Vec3Q.zero, Vec3Q.unitX)]
     (by norm_num),
   (aimBurst_first_dir_and_inert.2.2.2 FireTagAimBurst.init
       (List.replicate 8 ((1 : ℚ)/25, Vec3Q.zero, Vec3Q.unitX)) rfl
       (by intro t ht; rw [List.eq_of_mem_replicate ht]; norm_num [FireTagAimBurst.init])).1⟩

/-! ## Dangling timeline references (C7) -/

/-- C7: a timeline event naming a descriptor absent from the registry
spawns nothing (the request is dropped with only a diagnostic — the
`none` outcome), while the timeline advance itself (elapsed time and
next-unprocessed index) and the rest of the manager state are exactly
those of the plain sequencer advance, independent of the registry; every
other elapsed event with a known descriptor still spawns its controller
normally. -/
theorem timeline_unknown_descriptor (m : EnemyManager) (dt : ℚ) :
    ((m.execute_timeline dt).1.timeline = (executeTimeline m.timeline dt).1 ∧
     (m.execute_timeline dt).1.boss_lifebar_entity = m.boss_lifebar_entity ∧
     (m.execute_timeline dt).1.descriptors = m.descriptors) ∧
    (∀ k p, (executeTimeline m.timeline dt).2.get? k = some p →
      (m.descriptors p.2.enemy = none →
        (m.execute_timeline dt).2.get? k = some none) ∧
      (∀ desc, m.descriptors p.2.enemy = some desc →
        (m.execute_timeline dt).2.get? k =
          some (some (controllerOfDescriptor desc p.2.start_pos)))) := by
  refine ⟨⟨rfl, rfl, rfl⟩, ?_⟩
  intro k p hk
  have hmap : (m.execute_timeline dt).2.get? k =
      some (m.spawn p.2.enemy p.2.start_pos) := by
    show ((executeTimeline m.timeline dt).2.map
        (fun q => m.spawn q.2.enemy q.2.start_pos)).get? k = _
    rw [List.get?_map, hk]
    rfl
  constructor
  · intro hnone
    rw [hmap]
    unfold EnemyManager.spawn
    rw [hnone]
    rfl
  · intro desc hdesc
    rw [hmap]
    unfold EnemyManager.spawn
    rw [hdesc]
    rfl

/-- Witness for C7 on `sampleManager`: the first (dangling, `"ghost"`)
event is dropped while the second (`"boss"`) still spawns. -/
theorem timeline_unknown_descriptor_witness :
    (sampleManager.execute_timeline 3).2.get? 0 = some none ∧
    (sampleManager.execute_timeline 3).2.get? 1 =
      some (some (controllerOfDescriptor bossDescr ⟨3, 1, 0⟩)) :=
  ⟨((timeline_unknown_descriptor sampleManager 3).2 0 (0, ⟨1, "ghost", Vec3Q.zero⟩)
      (by norm_num [sampleManager, timelineInit, executeTimeline, timelineScan])).1
    (by simp [sampleManager]),
   ((timeline_unknown_descriptor sampleManager 3).2 1 (1, ⟨2, "boss", ⟨3, 1, 0⟩⟩)
      (by norm_num [sampleManager, timelineInit, executeTimeline, timelineScan])).2 bossDescr
    (by norm_num [sampleManager])⟩

/-! ## Lifebar HUD show-cycle lemmas (C8) -/

theorem hudTick_lifebars (h : LifebarHud) (sr c : Bool) (u : Option ℚ) :
    (hudTick h none sr c u).hud.lifebars = h.lifebars := by
  rcases h with ⟨o, bars, idx, life, rl, fu, phase⟩
  cases phase <;> cases c <;> cases sr <;> cases u <;>
    simp [hudTick] <;> split_ifs <;> rfl

theorem hudTick_fill_seq (h : LifebarHud) (sr c : Bool) (u : Option ℚ) :
    (hudTick h none sr c u).hud.fill_seq =
      (if sr ∧ h.fill_seq = .idle then
        (if c then .fillUp 0 else .slideIn)
      else if c then
        match h.fill_seq with
        | .slideIn => .fillUp 0
        | .fillUp i => if i + 1 < h.lifebars.length then .fillUp (i + 1) else .ready
        | .slideOut => .idle
        | ph => ph
      else h.fill_seq) := by
  rcases h with ⟨o, bars, idx, life, rl, fu, phase⟩
  cases phase <;> cases c <;> cases sr <;> cases u <;>
    simp [hudTick] <;> split_ifs <;> rfl

theorem canonFillPhase_ne_idle (n k : ℕ) : canonFillPhase n k ≠ .idle := by
  unfold canonFillPhase
  split_ifs <;> simp

theorem canonFillPhase_fillUp_inv (n k a : ℕ)
    (h : canonFillPhase n k = .fillUp a) : k = a + 1 ∧ a < n := by
  unfold canonFillPhase at h
  by_cases h1 : k = 0
  · rw [if_pos h1] at h
    exact absurd h (by simp)
  · rw [if_neg h1] at h
    by_cases h2 : k ≤ n
    · rw [if_pos h2] at h
      injection h with h
      omega
    · rw [if_neg h2] at h
      exact absurd h (by simp)

theorem canonFillPhase_ready_inv (n k : ℕ)
    (h : canonFillPhase n k = .ready) : n < k := by
  unfold canonFillPhase at h
  by_cases h1 : k = 0
  · rw [if_pos h1] at h
    exact absurd h (by simp)
  · rw [if_neg h1] at h
    by_cases h2 : k ≤ n
    · rw [if_pos h2] at h
      exact absurd h (by simp)
    · omega

theorem canonFillPhase_of_fillUp (n a : ℕ) (h : a < n) :
    canonFillPhase n (a + 1) = .fillUp a := by
  unfold canonFillPhase
  rw [if_neg (by omega), if_pos (by omega)]
  simp

theorem hudTick_canon_step (h : LifebarHud) (sr c : Bool) (u : Option ℚ) (k : ℕ)
    (hn : 1 ≤ h.lifebars.length)
    (hp : h.fill_seq = canonFillPhase h.lifebars.length k) :
    (hudTick h none sr c u).hud.fill_seq =
      canonFillPhase h.lifebars.length (k + if c then 1 else 0) := by
  rw [hudTick_fill_seq]
  rw [if_neg (fun hc => canonFillPhase_ne_idle _ _ (hp ▸ hc.2))]
  cases c
  · simpa using hp
  · have hplus : k + (if (true : Bool) then 1 else 0) = k + 1 := by simp
    rw [hplus]
    simp only [if_pos rfl]
    rw [hp]
    by_cases hk0 : k = 0
    · have h1 : canonFillPhase h.lifebars.length k = .slideIn := by
        unfold canonFillPhase
        rw [if_pos hk0]
      rw [h1]
      show LifebarFillSeqPhase.fillUp 0 = canonFillPhase h.lifebars.length (k + 1)
      subst hk0
      rw [canonFillPhase_of_fillUp _ 0 (by omega)]
    · by_cases hkn : k ≤ h.lifebars.length
      · have h1 : canonFillPhase h.lifebars.length k = .fillUp (k - 1) := by
          unfold canonFillPhase
          rw [if_neg hk0, if_pos hkn]
        rw [h1]
        show (if (k - 1) + 1 < h.lifebars.length then LifebarFillSeqPhase.fillUp ((k - 1) + 1)
          else LifebarFillSeqPhase.ready) = canonFillPhase h.lifebars.length (k + 1)
        by_cases hklt : k < h.lifebars.length
        · rw [if_pos (by omega)]
          have hk1 : (k - 1) + 1 = k := by omega
          rw [hk1, canonFillPhase_of_fillUp _ k hklt]
        · rw [if_neg (by omega)]
          have h2 : canonFillPhase h.lifebars.length (k + 1) = .ready := by
            unfold canonFillPhase
            rw [if_neg (by omega), if_neg (by omega)]
          rw [h2]
      · have h1 : canonFillPhase h.lifebars.length k = .ready := by
          unfold canonFillPhase
          rw [if_neg hk0, if_neg hkn]
        rw [h1]
        show LifebarFillSeqPhase.ready = canonFillPhase h.lifebars.length (k + 1)
        have h2 : canonFillPhase h.lifebars.length (k + 1) = .ready := by
          unfold canonFillPhase
          rw [if_neg (by omega), if_neg (by omega)]
        rw [h2]

theorem hudTrace_canon :
    ∀ (ins : List (Bool × Bool × Option ℚ)) (h : LifebarHud) (k : ℕ),
      1 ≤ h.lifebars.length →
      h.fill_seq = canonFillPhase h.lifebars.length k →
      ∀ i r, (hudTrace h ins).get? i = some r →
        r.lifebars = h.lifebars ∧
        r.fill_seq = canonFillPhase h.lifebars.length
          (k + cntCompleted (ins.take (i + 1))) := by
  intro ins
  induction ins with
  | nil => intro h k _ _ i r hr; simp [hudTrace] at hr
  | cons t ts ih =>
    intro h k hn hp i r hr
    have hbars : (hudTick h none t.1 t.2.1 t.2.2).hud.lifebars = h.lifebars :=
      hudTick_lifebars h t.1 t.2.1 t.2.2
    have hstep := hudTick_canon_step h t.1 t.2.1 t.2.2 k hn hp
    cases i with
    | zero =>
      simp only [hudTrace, List.get?] at hr
      injection hr with hr
      subst hr
      refine ⟨hbars, ?_⟩
      rw [hstep]
      congr 1
      have htake : (t :: ts).take (0 + 1) = [t] := rfl
      rw [htake]
      simp only [cntCompleted, List.countP_cons, List.countP_nil, Nat.zero_add]
    | succ i =>
      simp only [hudTrace, List.get?] at hr
      have hres := ih (hudTick h none t.1 t.2.1 t.2.2).hud
        (k + if t.2.1 then 1 else 0) (by rw [hbars]; exact hn)
        (by rw [hstep, hbars]) i r hr
      rw [hbars] at hres
      refine ⟨hres.1, ?_⟩
      rw [hres.2]
      have htake : (t :: ts).take (i + 1 + 1) = t :: ts.take (i + 1) := rfl
      rw [htake]
      congr 1
      simp only [cntCompleted, List.countP_cons]
      cases hc : t.2.1 <;> simp [hc] <;> omega

theorem countP_take_mono {α : Type} (p : α → Bool) (l : List α) (i j : ℕ) (hij : i ≤ j) :
    (l.take i).countP p ≤ (l.take j).countP p := by
  have h1 : l.take i = (l.take j).take i := by rw [List.take_take, min_eq_left hij]
  rw [h1]
  exact List.Sublist.countP_le p (List.take_sublist i (l.take j))

theorem countP_take_succ {α : Type} (p : α → Bool) (l : List α) (i : ℕ) :
    (l.take (i + 1)).countP p ≤ (l.take i).countP p + 1 := by
  rw [List.take_succ, List.countP_append]
  have hone : (l[i]?.toList).countP p ≤ 1 := by
    cases h : l[i]? with
    | none => simp
    | some x =>
      simp only [Option.toList_some, List.countP_cons, List.countP_nil, Nat.zero_add]
      split_ifs <;> omega
  omega

theorem exists_intermediate_of_unit_steps (g : ℕ → ℕ)
    (hstep : ∀ i, g (i + 1) ≤ g i + 1) (hmono : ∀ i j, i ≤ j → g i ≤ g j) :
    ∀ (m v : ℕ), g 0 ≤ v → v ≤ g m → ∃ j, j ≤ m ∧ g j = v := by
  intro m
  induction m with
  | zero => intro v h0 hm; exact ⟨0, le_refl 0, by omega⟩
  | succ m ih =>
    intro v h0 hm
    by_cases hv : v ≤ g m
    · obtain ⟨j, hj, hgj⟩ := ih v h0 hv
      exact ⟨j, by omega, hgj⟩
    · push_neg at hv
      refine ⟨m + 1, le_refl _, ?_⟩
      have := hstep m
      omega

/-- C8: in every show cycle (a `show` request consumed in `Idle`,
followed by arbitrary ticks), the fill phase is the canonical function of
the number of completed animations, and consequently `FillUp(i)` is
visited for every `i` in `[0, segment_count)`, in ascending order of `i`,
each as a single contiguous visit, all before `Ready` is reached. -/
theorem hud_fill_cycle (h : LifebarHud) (c : Bool) (u : Option ℚ)
    (rest : List (Bool × Bool × Option ℚ))
    (hidle : h.fill_seq = LifebarFillSeqPhase.idle) (hn : 1 ≤ h.lifebars.length) :
    HudShowCycleProp h ((true, c, u) :: rest) := by
  set ins : List (Bool × Bool × Option ℚ) := (true, c, u) :: rest with hins
  set h1 := (hudTick h none true c u).hud with hh1
  have hbars1 : h1.lifebars = h.lifebars := hudTick_lifebars h true c u
  have hph1 : h1.fill_seq = canonFillPhase h.lifebars.length (if c then 1 else 0) := by
    rw [hh1, hudTick_fill_seq, if_pos ⟨rfl, hidle⟩]
    cases c
    · have hc0 : canonFillPhase h.lifebars.length 0 = .slideIn := by
        unfold canonFillPhase
        rw [if_pos rfl]
      simpa using hc0.symm
    · simpa using (canonFillPhase_of_fillUp h.lifebars.length 0 (by omega)).symm
  have htr : hudTrace h ins = h1 :: hudTrace h1 rest := rfl
  have hchar : ∀ i r, (hudTrace h ins).get? i = some r →
      r.fill_seq = canonFillPhase h.lifebars.length (cntCompleted (ins.take (i + 1))) := by
    intro i r hr
    rw [htr] at hr
    cases i with
    | zero =>
      simp only [List.get?] at hr
      injection hr with hr
      subst hr
      rw [hph1]
      congr 1
      show (if c then 1 else 0) = cntCompleted [(true, c, u)]
      simp only [cntCompleted, List.countP_cons, List.countP_nil, Nat.zero_add]
    | succ i =>
      simp only [List.get?] at hr
      have hres := hudTrace_canon rest h1 (if c then 1 else 0)
        (by rw [hbars1]; exact hn) (by rw [hph1, hbars1]) i r hr
      rw [hbars1] at hres
      rw [hres.2]
      congr 1
      have htake : ins.take (i + 1 + 1) = (true, c, u) :: rest.take (i + 1) := rfl
      rw [htake]
      simp only [cntCompleted, List.countP_cons]
      cases hc : c <;> simp [hc] <;> omega
  have hg0 : cntCompleted (ins.take 0) = 0 := rfl
  have hgmono : ∀ i j, i ≤ j →
      cntCompleted (ins.take i) ≤ cntCompleted (ins.take j) :=
    fun i j hij => countP_take_mono _ ins i j hij
  have hgstep : ∀ i, cntCompleted (ins.take (i + 1)) ≤ cntCompleted (ins.take i) + 1 :=
    fun i => countP_take_succ _ ins i
  refine ⟨hchar, ?_, ?_, ?_⟩
  · intro i j a b ri rj hi hj hfi hfj hab
    have hgi := canonFillPhase_fillUp_inv _ _ _ ((hchar i ri hi).symm.trans hfi)
    have hgj := canonFillPhase_fillUp_inv _ _ _ ((hchar j rj hj).symm.trans hfj)
    by_contra hne
    have hji : j ≤ i := by omega
    have := hgmono (j + 1) (i + 1) (by omega)
    omega
  · intro i j l a ri rj rl hij hjl hi hj hl hfi hfl
    have hgi := canonFillPhase_fillUp_inv _ _ _ ((hchar i ri hi).symm.trans hfi)
    have hgl := canonFillPhase_fillUp_inv _ _ _ ((hchar l rl hl).symm.trans hfl)
    have h1m := hgmono (i + 1) (j + 1) (by omega)
    have h2m := hgmono (j + 1) (l + 1) (by omega)
    have hgje : cntCompleted (ins.take (j + 1)) = a + 1 := by omega
    rw [hchar j rj hj, hgje]
    exact canonFillPhase_of_fillUp _ a hgi.2
  · intro i ri hi hready a ha
    have hgi : h.lifebars.length < cntCompleted (ins.take (i + 1)) :=
      canonFillPhase_ready_inv _ _ ((hchar i ri hi).symm.trans hready)
    obtain ⟨m, hm, hgm⟩ := exists_intermediate_of_unit_steps
      (fun i => cntCompleted (ins.take i)) hgstep hgmono (i + 1) (a + 1)
      (by simp only []; rw [hg0]; omega) (by simp only []; omega)
    have hm0 : m ≠ 0 := by
      intro h0
      rw [h0, hg0] at hgm
      omega
    obtain ⟨j, rfl⟩ := Nat.exists_eq_succ_of_ne_zero hm0
    have hgm2 : cntCompleted (ins.take (j + 1)) = a + 1 := by
      simpa using hgm
    have hji : j < i := by
      by_contra hc
      have hji2 : j = i := by omega
      subst hji2
      omega
    have hilen : i < (hudTrace h ins).length := (List.get?_eq_some.mp hi).1
    have hjlen : j < (hudTrace h ins).length := by omega
    refine ⟨j, (hudTrace h ins).get ⟨j, hjlen⟩, hji, (List.get?_eq_get hjlen), ?_⟩
    rw [hchar j _ (List.get?_eq_get hjlen), hgm2]
    exact canonFillPhase_of_fillUp _ a ha

/-- Witness for C8 on a concrete 3-segment HUD and a 6-tick input trace
(show, then completions interleaved with an idle tick). -/
theorem hud_fill_cycle_witness :
    idleHud.fill_seq = LifebarFillSeqPhase.idle ∧ 1 ≤ idleHud.lifebars.length ∧
    HudShowCycleProp idleHud ((true, false, none) ::
      [(false, true, none), (false, true, none), (false, false, none),
       (false, true, none), (false, true, none)]) :=
  ⟨rfl, by norm_num [idleHud],
   hud_fill_cycle idleHud false none
     [(false, true, none), (false, true, none), (false, false, none),
      (false, true, none), (false, true, none)] rfl (by norm_num [idleHud])⟩

/-! ## Per-tick enemy update loop (C9, C10) -/

theorem updateEnemyLoop_cons (boss : ℕ) (dt : ℚ) (player : Vec3Q)
    (dmg : List DamageEvent) (e : EnemyEntity) (rest : List EnemyEntity) :
    updateEnemyLoop boss dt player dmg (e :: rest) =
      if afterDamageLife dmg e ≤ 0 then
        ⟨rest, enemyNotes boss dmg e, [], true⟩
      else
        ⟨enemyAliveStep dt player dmg e ::
            (updateEnemyLoop boss dt player dmg rest).entities,
         enemyNotes boss dmg e ++ (updateEnemyLoop boss dt player dmg rest).lifebar_events,
         enemyAliveBullets dt player dmg e ++ (updateEnemyLoop boss dt player dmg rest).bullets,
         (updateEnemyLoop boss dt player dmg rest).halted⟩ := by
  have hdie2 : (afterDamageLife dmg e ≤ 0) =
      ((if 0 < damageFor dmg e.id then
        e.controller.remain_life - damageFor dmg e.id
      else e.controller.remain_life) ≤ 0) := rfl
  by_cases hdie : afterDamageLife dmg e ≤ 0
  · rw [if_pos hdie]
    show (if (if 0 < damageFor dmg e.id then
        e.controller.remain_life - damageFor dmg e.id else e.controller.remain_life) ≤ 0 then _
      else _) = _
    rw [if_pos (hdie2 ▸ hdie)]
    rfl
  · rw [if_neg hdie]
    show (if (if 0 < damageFor dmg e.id then
        e.controller.remain_life - damageFor dmg e.id else e.controller.remain_life) ≤ 0 then _
      else _) = _
    rw [if_neg (hdie2 ▸ hdie)]
    rfl

theorem enemyNotes_entity (boss : ℕ) (dmg : List DamageEvent) (e : EnemyEntity) :
    ∀ ev ∈ enemyNotes boss dmg e, ev.entity = boss := by
  intro ev hev
  unfold enemyNotes at hev
  split_ifs at hev
  · rw [List.mem_singleton.mp hev]
  · simp at hev

/-- C9: every lifebar update notification emitted by the enemy damage
path of `update_enemy` targets the manager's single boss lifebar entity,
for every enemy in the query; and spawning ignores the descriptor's
`is_boss` flag entirely (controllers built from descriptors differing
only in `is_boss` are identical), so non-boss enemies drive the boss
lifebar too. -/
theorem lifebar_events_target_boss (boss : ℕ) (dt : ℚ) (player : Vec3Q)
    (dmg : List DamageEvent) (es : List EnemyEntity)
    (desc : EnemyDescriptor) (pos : Vec3Q) (b : Bool) :
    (∀ ev ∈ (updateEnemyLoop boss dt player dmg es).lifebar_events, ev.entity = boss) ∧
    controllerOfDescriptor { desc with is_boss := b } pos =
      controllerOfDescriptor desc pos := by
  refine ⟨?_, rfl⟩
  induction es with
  | nil => intro ev hev; simp [updateEnemyLoop] at hev
  | cons e rest ih =>
    intro ev hev
    rw [updateEnemyLoop_cons] at hev
    by_cases hdie : afterDamageLife dmg e ≤ 0
    · rw [if_pos hdie] at hev
      exact enemyNotes_entity boss dmg e ev hev
    · rw [if_neg hdie] at hev
      rcases List.mem_append.mp hev with hev | hev
      · exact enemyNotes_entity boss dmg e ev hev
      · exact ih ev hev

/-- Witness for C9 on a three-enemy tick in which the (non-boss)
`fly_by` enemy with id 2 takes damage: all notifications target entity 7
(the boss lifebar), and `is_boss` does not influence the spawned
controller. -/
theorem lifebar_events_target_boss_witness :
    (∀ ev ∈ (updateEnemyLoop 7 (1/60) Vec3Q.zero [⟨2, 5⟩]
        [entA, entB, entC]).lifebar_events, ev.entity = 7) ∧
    controllerOfDescriptor { flyByDescr with is_boss := true } Vec3Q.zero =
      controllerOfDescriptor flyByDescr Vec3Q.zero :=
  lifebar_events_target_boss 7 (1/60) Vec3Q.zero [⟨2, 5⟩] [entA, entB, entC]
    flyByDescr Vec3Q.zero true

/-- C10: when the per-tick enemy update reaches the first enemy whose
remaining life after damage application is `<= 0`, it despawns that enemy
and returns from the whole system: the result contains the untouched
suffix verbatim — no later enemy receives damage application, motion
update, fire-pattern execution, or emits anything this tick. -/
theorem update_enemy_halts_on_death (boss : ℕ) (dt : ℚ) (player : Vec3Q)
    (dmg : List DamageEvent) (pre : List EnemyEntity) (e : EnemyEntity)
    (rest : List EnemyEntity)
    (hpre : ∀ p ∈ pre, ¬ afterDamageLife dmg p ≤ 0)
    (he : afterDamageLife dmg e ≤ 0) :
    updateEnemyLoop boss dt player dmg (pre ++ e :: rest) =
      ⟨pre.map (enemyAliveStep dt player dmg) ++ rest,
       (pre.map (enemyNotes boss dmg)).join ++ enemyNotes boss dmg e,
       (pre.map (enemyAliveBullets dt player dmg)).join,
       true⟩ := by
  induction pre with
  | nil =>
    simp only [List.nil_append, List.map_nil, List.join_nil]
    rw [updateEnemyLoop_cons, if_pos he]
  | cons p ps ih =>
    have hp := hpre p (List.mem_cons_self _ _)
    rw [List.cons_append, updateEnemyLoop_cons, if_neg hp,
      ih (fun q hq => hpre q (List.mem_cons_of_mem _ hq))]
    simp [List.append_assoc]

/-- Witness for C10: enemy 2 (life 2) takes 5 damage and dies; enemy 1
before it is updated normally, enemy 3 after it is returned untouched. -/
theorem update_enemy_halts_on_death_witness :
    (∀ p ∈ [entA], ¬ afterDamageLife [⟨2, 5⟩] p ≤ 0) ∧
    afterDamageLife [⟨2, 5⟩] entB ≤ 0 ∧
    updateEnemyLoop 7 (1/60) Vec3Q.zero [⟨2, 5⟩] ([entA] ++ entB :: [entC]) =
      ⟨[entA].map (enemyAliveStep (1/60) Vec3Q.zero [⟨2, 5⟩]) ++ [entC],
       ([entA].map (enemyNotes 7 [⟨2, 5⟩])).join ++ enemyNotes 7 [⟨2, 5⟩] entB,
       ([entA].map (enemyAliveBullets (1/60) Vec3Q.zero [⟨2, 5⟩])).join,
       true⟩ :=
  ⟨by
    intro p hp
    rw [List.mem_singleton.mp hp]
    norm_num [afterDamageLife, damageFor, entA, bossDescr, controllerOfDescriptor],
   by norm_num [afterDamageLife, damageFor, entB, flyByDescr, controllerOfDescriptor],
   update_enemy_halts_on_death 7 (1/60) Vec3Q.zero [⟨2, 5⟩] [entA] entB [entC]
     (by
       intro p hp
       rw [List.mem_singleton.mp hp]
       norm_num [afterDamageLife, damageFor, entA, bossDescr, controllerOfDescriptor])
     (by norm_num [afterDamageLife, damageFor, entB, flyByDescr, controllerOfDescriptor])⟩
